import Mathlib

/-!
Verification of the OpenCut Asset Indexing & Retrieval Engine.

This file gives a shallow embedding, in Lean 4, of the core indexing code of
the repository (`opencut/indexer/fingerprint.py`, `opencut/indexer/semantic.py`
and the facade `opencut/editor.py`), and settles the frozen claims about it.

Modelling conventions:
- Python `int`/`float` values that the algorithms treat exactly are modelled as
  `Nat` / `Int` / `Rat` (no floating point feature of the code is under test);
- hexadecimal hash strings are modelled as lists of hex digits `List (Fin 16)`;
- fallible operations return `Option` / `Except`;
- external capabilities (video decoding, CLIP embedding, the md5 digest, the
  filesystem) are passed in as explicit function arguments, so every definition
  is executable;
- the sqlite store is modelled as in-memory tables in rowid order with
  AUTOINCREMENT id counters; Python dicts are association lists with Python
  dict update semantics (in-place value replacement keeps the key position).
-/

/-- Truncating integer conversion, Python `int(q)` on a rational (truncation
toward zero, which is what `Int` T-division `num / den` computes). -/
def pyTrunc (q : ℚ) : Int := q.num / (q.den : Int)

/-- Python `str.rfind`-style last index of an element in a list, as `Option`. -/
def lastIdxOf (a : Char) (l : List Char) : Option Nat :=
  (l.enum.filter (fun p => p.2 = a)).map Prod.fst |>.getLast?

/-- Python `pathlib.Path(p).name`: the final path component (the characters
after the last slash). -/
def pathName (p : String) : String :=
  String.mk ((p.toList.reverse.takeWhile (fun c => c ≠ '/')).reverse)

/-- Python `pathlib.Path(p).stem`: the final component minus its suffix.  The
suffix is the part from the last dot, but only when that dot is neither the
first nor the last character of the name. -/
def pathStem (p : String) : String :=
  let name := (pathName p).toList
  match lastIdxOf ('.') name with
  | none => String.mk name
  | some i => if 0 < i ∧ i < name.length - 1 then String.mk (name.take i) else String.mk name

/-- Python format `f"{i:04d}"` for a nonnegative integer: decimal digits,
left-padded with zeros to width (at least) 4. -/
def pad4 (i : Nat) : String :=
  let s := toString i
  String.mk (List.replicate (4 - s.length) ('0')) ++ s

/-- Lookup in an association list modelling a Python dict read `m[k]`
(`none` models a `KeyError`). -/
def lookupA {α : Type} (m : List (String × α)) (k : String) : Option α :=
  (m.find? (fun p => p.1 = k)).map Prod.snd

/-- Python dict assignment `m[k] = v`: replace the value in place when the key
exists (keeping its insertion position), otherwise append the new binding. -/
def dictUpsert {α : Type} (m : List (String × α)) (k : String) (v : α) : List (String × α) :=
  if m.any (fun p => p.1 = k) then m.map (fun p => if p.1 = k then (k, v) else p)
  else m ++ [(k, v)]

/-! ## Perceptual hashes (`VideoHasher`, fingerprint.py)

A hash string is a list of hex digits.  `hamming_distance` in the source
converts both strings with `bin(int(h, 16))[2:].zfill(64)` and counts
differing characters of the `zip` (which silently truncates to the shorter
binary string). -/

/-- Numeric value of a hex string, Python `int(h, 16)` (big-endian fold). -/
def hashVal (h : List (Fin 16)) : Nat :=
  h.foldl (fun a d => 16 * a + d.val) 0

/-- Big-endian binary representation of `v` padded/truncated to exactly `n`
bits (least significant bit last). -/
def natToBitsFixed : Nat → Nat → List Bool
  | 0, _ => []
  | n + 1, v => natToBitsFixed n (v / 2) ++ [decide (v % 2 = 1)]

/-- Fuelled big-endian binary representation with no leading zeros (empty for
zero); the fuel argument makes the recursion structural. -/
def bitsAux : Nat → Nat → List Bool
  | 0, _ => []
  | f + 1, v => if v = 0 then [] else bitsAux f (v / 2) ++ [decide (v % 2 = 1)]

/-- Big-endian binary digits of `v` without leading zeros, empty for zero. -/
def bitsMSB (v : Nat) : List Bool := bitsAux v v

/-- Python `bin(v)[2:]` as a list of bits: the binary digits of `v`, where
zero prints as the single digit `0`. -/
def pyBin (v : Nat) : List Bool :=
  if v = 0 then [false] else bitsMSB v

/-- Python `str.zfill(n)` on a bit string: left-pad with zeros to length `n`
(no-op when already at least `n` long). -/
def zfill (n : Nat) (l : List Bool) : List Bool :=
  List.replicate (n - l.length) false ++ l

/-- Number of differing positions of two bit strings, comparing only up to the
shorter length exactly as Python `zip` does. -/
def countDiff (xs ys : List Bool) : Nat :=
  (xs.zip ys).countP (fun p => p.1 != p.2)

namespace VideoHasher

/-- Embedding of `VideoHasher.hamming_distance`: `none` models the Python
`float("inf")` return for mismatched lengths; otherwise the differing-character
count of the two `zfill(64)`-padded binary strings under `zip` truncation. -/
def hamming_distance (h1 h2 : List (Fin 16)) : Option Nat :=
  if h1.length ≠ h2.length then none
  else some (countDiff (zfill 64 (pyBin (hashVal h1))) (zfill 64 (pyBin (hashVal h2))))

/-- Embedding of `VideoHasher.is_similar`: distance at most `threshold`; the
infinite distance (`none`) compares as not similar, matching
`float("inf") <= threshold` being false in Python. -/
def is_similar (h1 h2 : List (Fin 16)) (threshold : Nat) : Bool :=
  match hamming_distance h1 h2 with
  | none => false
  | some d => decide (d ≤ threshold)

end VideoHasher

/-- The bit string a hex hash denotes: four bits per digit, in order.  This is
the specification-side reading of "the two hashes' binary representations". -/
def hexBits (h : List (Fin 16)) : List Bool :=
  (h.map (fun d => natToBitsFixed 4 d.val)).flatten

/-- Specification-side Hamming distance of two equal-length hex hashes: the
number of bit positions at which their binary representations differ. -/
def specDiffCount (h1 h2 : List (Fin 16)) : Nat :=
  countDiff (hexBits h1) (hexBits h2)

example : VideoHasher.hamming_distance [(0 : Fin 16), 0] [(15 : Fin 16), 15] = some 8 := by decide
example : VideoHasher.hamming_distance [(0 : Fin 16)] [(1 : Fin 16), 2] = none := by decide
example : specDiffCount [(0 : Fin 16), 0] [(15 : Fin 16), 15] = 8 := by decide

/-! ## Binary-representation lemmas for the Hamming distance -/

theorem bitsAux_zero (f : Nat) : bitsAux f 0 = [] := by
  cases f <;> simp [bitsAux]

theorem bitsAux_congr : ∀ (f1 : Nat) (v f2 : Nat), v ≤ f1 → v ≤ f2 →
    bitsAux f1 v = bitsAux f2 v := by
  intro f1
  induction f1 with
  | zero =>
    intro v f2 h1 _
    have hv : v = 0 := Nat.le_zero.mp h1
    subst hv
    simp [bitsAux_zero]
  | succ g1 ih =>
    intro v f2 h1 h2
    by_cases hv : v = 0
    · subst hv; simp [bitsAux_zero]
    · obtain ⟨g2, rfl⟩ : ∃ g2, f2 = g2 + 1 := by
        cases f2 with
        | zero => omega
        | succ g2 => exact ⟨g2, rfl⟩
      have hlt : v / 2 < v := Nat.div_lt_self (Nat.pos_of_ne_zero hv) (by omega)
      have hle1 : v / 2 ≤ g1 := by omega
      have hle2 : v / 2 ≤ g2 := by omega
      simp only [bitsAux, if_neg hv]
      rw [ih (v / 2) g2 hle1 hle2]

theorem bitsMSB_eq (v : Nat) (hv : v ≠ 0) :
    bitsMSB v = bitsMSB (v / 2) ++ [decide (v % 2 = 1)] := by
  obtain ⟨g, rfl⟩ : ∃ g, v = g + 1 := by
    cases v with
    | zero => omega
    | succ g => exact ⟨g, rfl⟩
  unfold bitsMSB
  have h1 : bitsAux (g + 1) (g + 1) = bitsAux g ((g + 1) / 2) ++ [decide ((g + 1) % 2 = 1)] := by
    simp [bitsAux]
  rw [h1]
  congr 1
  exact bitsAux_congr g ((g + 1) / 2) ((g + 1) / 2) (by omega) (le_refl _)

theorem natToBitsFixed_zero (n : Nat) : natToBitsFixed n 0 = List.replicate n false := by
  induction n with
  | zero => simp [natToBitsFixed]
  | succ m ih => simp [natToBitsFixed, ih, List.replicate_succ']

theorem natToBitsFixed_length (n v : Nat) : (natToBitsFixed n v).length = n := by
  induction n generalizing v with
  | zero => simp [natToBitsFixed]
  | succ m ih => simp [natToBitsFixed, ih]

theorem natToBitsFixed_eq_pad (n : Nat) : ∀ v, v < 2 ^ n →
    natToBitsFixed n v = List.replicate (n - (bitsMSB v).length) false ++ bitsMSB v := by
  induction n with
  | zero =>
    intro v hv
    have : v = 0 := by omega
    subst this
    simp [natToBitsFixed, bitsMSB, bitsAux]
  | succ m ih =>
    intro v hv
    by_cases hz : v = 0
    · subst hz
      simp [natToBitsFixed_zero, bitsMSB, bitsAux_zero]
    · have hv2 : v / 2 < 2 ^ m := by
        have : v < 2 ^ m * 2 := by
          rw [← pow_succ]; exact hv
        omega
      have hrec := ih (v / 2) hv2
      have hmsb := bitsMSB_eq v hz
      have hlen : (bitsMSB v).length = (bitsMSB (v / 2)).length + 1 := by
        rw [hmsb]; simp
      simp only [natToBitsFixed]
      rw [hrec, List.append_assoc, ← hmsb, hlen]
      congr 2
      omega

theorem bitsMSB_length_le (n v : Nat) (hv : v < 2 ^ n) : (bitsMSB v).length ≤ n := by
  have h := natToBitsFixed_eq_pad n v hv
  have hl := natToBitsFixed_length n v
  rw [h] at hl
  simp at hl
  omega

theorem zfill_pyBin (v : Nat) (hv : v < 2 ^ 64) :
    zfill 64 (pyBin v) = natToBitsFixed 64 v := by
  by_cases hz : v = 0
  · subst hz
    decide
  · rw [show pyBin v = bitsMSB v by simp [pyBin, hz]]
    show List.replicate (64 - (bitsMSB v).length) false ++ bitsMSB v = _
    exact (natToBitsFixed_eq_pad 64 v hv).symm

theorem natToBitsFixed_split (m : Nat) : ∀ (n v : Nat),
    natToBitsFixed (m + n) v =
      natToBitsFixed m (v / 2 ^ n) ++ natToBitsFixed n (v % 2 ^ n) := by
  intro n
  induction n generalizing m with
  | zero =>
    intro v
    simp [natToBitsFixed, Nat.mod_one]
  | succ k ih =>
    intro v
    have h1 : m + (k + 1) = (m + k) + 1 := by omega
    rw [h1]
    show natToBitsFixed (m + k) (v / 2) ++ [decide (v % 2 = 1)] = _
    rw [ih m (v / 2)]
    have hd : v / 2 / 2 ^ k = v / 2 ^ (k + 1) := by
      rw [Nat.div_div_eq_div_mul]
      congr 1
      rw [pow_succ']
    have hm : v / 2 % 2 ^ k = v % 2 ^ (k + 1) / 2 := by
      rw [show (2 : Nat) ^ (k + 1) = 2 * 2 ^ k by rw [pow_succ']]
      rw [Nat.mod_mul_right_div_self]
    have hb : v % 2 = v % 2 ^ (k + 1) % 2 := by
      rw [Nat.mod_mod_of_dvd]
      exact dvd_pow_self 2 (Nat.succ_ne_zero k)
    rw [hd, hm, hb]
    show _ = natToBitsFixed m (v / 2 ^ (k + 1)) ++
      (natToBitsFixed k (v % 2 ^ (k + 1) / 2) ++ [decide (v % 2 ^ (k + 1) % 2 = 1)])
    rw [List.append_assoc]

theorem hashVal_foldl (l : List (Fin 16)) : ∀ a : Nat,
    List.foldl (fun a d => 16 * a + d.val) a l = a * 16 ^ l.length + hashVal l := by
  induction l with
  | nil => intro a; simp [hashVal]
  | cons d t ih =>
    intro a
    show List.foldl _ (16 * a + d.val) t = _
    rw [ih (16 * a + d.val)]
    have hv : hashVal (d :: t) = d.val * 16 ^ t.length + hashVal t := by
      show List.foldl _ (16 * 0 + d.val) t = _
      rw [ih (16 * 0 + d.val)]
      simp
    rw [hv]
    simp [List.length_cons]
    ring

theorem hashVal_lt (h : List (Fin 16)) : hashVal h < 16 ^ h.length := by
  induction h with
  | nil => simp [hashVal]
  | cons d t ih =>
    have hv : hashVal (d :: t) = d.val * 16 ^ t.length + hashVal t := by
      show List.foldl _ (16 * 0 + d.val) t = _
      rw [hashVal_foldl t (16 * 0 + d.val)]
      simp
    rw [hv]
    have hd : d.val ≤ 15 := by omega
    have : d.val * 16 ^ t.length + hashVal t < (d.val + 1) * 16 ^ t.length := by
      have := ih
      nlinarith [pow_pos (show (0:Nat) < 16 by norm_num) t.length]
    calc d.val * 16 ^ t.length + hashVal t < (d.val + 1) * 16 ^ t.length := this
      _ ≤ 16 * 16 ^ t.length := by
          have : d.val + 1 ≤ 16 := by omega
          exact Nat.mul_le_mul_right _ this
      _ = 16 ^ (t.length + 1) := by rw [pow_succ]; ring
      _ = 16 ^ (d :: t).length := by simp

theorem hexBits_eq (h : List (Fin 16)) :
    hexBits h = natToBitsFixed (4 * h.length) (hashVal h) := by
  induction h with
  | nil => simp [hexBits, hashVal, natToBitsFixed]
  | cons d t ih =>
    have hv : hashVal (d :: t) = d.val * 16 ^ t.length + hashVal t := by
      show List.foldl _ (16 * 0 + d.val) t = _
      rw [hashVal_foldl t (16 * 0 + d.val)]
      simp
    have hsplit : natToBitsFixed (4 * (d :: t).length) (hashVal (d :: t)) =
        natToBitsFixed 4 (hashVal (d :: t) / 2 ^ (4 * t.length)) ++
        natToBitsFixed (4 * t.length) (hashVal (d :: t) % 2 ^ (4 * t.length)) := by
      rw [show 4 * (d :: t).length = 4 + 4 * t.length by simp [List.length_cons]; ring]
      exact natToBitsFixed_split 4 (4 * t.length) (hashVal (d :: t))
    have hpow : (16 : Nat) ^ t.length = 2 ^ (4 * t.length) := by
      rw [pow_mul]; norm_num
    have hlt : hashVal t < 2 ^ (4 * t.length) := by
      rw [← hpow]; exact hashVal_lt t
    have h16pos : 0 < (16 : Nat) ^ t.length := Nat.pos_pow_of_pos _ (by norm_num)
    have hdiv : hashVal (d :: t) / 2 ^ (4 * t.length) = d.val := by
      rw [hv, ← hpow]
      rw [show d.val * 16 ^ t.length + hashVal t = 16 ^ t.length * d.val + hashVal t by ring]
      rw [Nat.mul_add_div h16pos]
      rw [Nat.div_eq_of_lt (hashVal_lt t)]
      omega
    have hmod : hashVal (d :: t) % 2 ^ (4 * t.length) = hashVal t := by
      rw [hv, ← hpow]
      rw [show d.val * 16 ^ t.length + hashVal t = 16 ^ t.length * d.val + hashVal t by ring]
      rw [Nat.mul_add_mod]
      exact Nat.mod_eq_of_lt (hashVal_lt t)
    rw [hsplit, hdiv, hmod, ← ih]
    show hexBits (d :: t) = _
    simp [hexBits]

theorem countDiff_pad (k : Nat) (xs ys : List Bool) :
    countDiff (List.replicate k false ++ xs) (List.replicate k false ++ ys) =
      countDiff xs ys := by
  unfold countDiff
  rw [List.zip_append (by simp)]
  rw [List.countP_append]
  have : (List.zip (List.replicate k false) (List.replicate k false)).countP
      (fun p => p.1 != p.2) = 0 := by
    rw [List.zip_replicate]
    simp [List.countP_eq_zero]
  omega

theorem countDiff_comm (xs : List Bool) : ∀ ys, countDiff xs ys = countDiff ys xs := by
  induction xs with
  | nil => intro ys; cases ys <;> simp [countDiff]
  | cons x xt ih =>
    intro ys
    cases ys with
    | nil => simp [countDiff]
    | cons y yt =>
      unfold countDiff at ih ⊢
      simp only [List.zip_cons_cons, List.countP_cons]
      rw [ih yt]
      congr 1
      cases x <;> cases y <;> rfl

theorem countDiff_self (xs : List Bool) : countDiff xs xs = 0 := by
  induction xs with
  | nil => rfl
  | cons x xt ih =>
    unfold countDiff at ih ⊢
    simp only [List.zip_cons_cons, List.countP_cons]
    rw [ih]
    cases x <;> rfl

theorem countDiff_all_false (xs : List Bool) (ys : List Bool)
    (h1 : ∀ a ∈ xs, a = false) (h2 : ∀ a ∈ ys, a = false) : countDiff xs ys = 0 := by
  unfold countDiff
  rw [List.countP_eq_zero]
  intro p hp
  obtain ⟨hp1, hp2⟩ := List.of_mem_zip hp
  rw [h1 p.1 hp1, h2 p.2 hp2]
  simp

theorem bitsMSB_pow2 (k : Nat) : bitsMSB (2 ^ k) = true :: List.replicate k false := by
  induction k with
  | zero =>
    decide
  | succ m ih =>
    have hne : (2 : Nat) ^ (m + 1) ≠ 0 := by positivity
    rw [bitsMSB_eq _ hne]
    have hdiv : 2 ^ (m + 1) / 2 = 2 ^ m := by
      rw [pow_succ]
      exact Nat.mul_div_cancel _ (by norm_num)
    have hmod : 2 ^ (m + 1) % 2 = 0 := by
      rw [pow_succ]
      exact Nat.mul_mod_left _ 2
    rw [hdiv, hmod, ih]
    simp [List.replicate_succ']

theorem hashVal_lead_digit (d : Fin 16) (n : Nat) :
    hashVal (d :: List.replicate n (0 : Fin 16)) = d.val * 16 ^ n := by
  have hz : hashVal (List.replicate n (0 : Fin 16)) = 0 := by
    induction n with
    | zero => rfl
    | succ m ih =>
      show List.foldl _ (16 * 0 + (0 : Fin 16).val) (List.replicate m 0) = 0
      rw [hashVal_foldl]
      simpa using ih
  have hv : hashVal (d :: List.replicate n (0 : Fin 16)) =
      d.val * 16 ^ (List.replicate n (0 : Fin 16)).length
        + hashVal (List.replicate n (0 : Fin 16)) := by
    show List.foldl _ (16 * 0 + d.val) _ = _
    rw [hashVal_foldl]
    simp
  rw [hv, hz]
  simp

/-- C4: `hamming_distance` returns the failure value exactly when the hash
lengths differ; when lengths agree it returns the number of differing bit
positions of the two binary representations PROVIDED the hashes are at most 16
hex digits (below the `zfill(64)` width); it is symmetric and zero on equal
arguments.  (For longer equal-length hashes the code miscounts, see the
counterexample.) -/
theorem C4_hamming_distance_correct (h1 h2 : List (Fin 16)) :
    (VideoHasher.hamming_distance h1 h2 = none ↔ h1.length ≠ h2.length)
    ∧ (h1.length = h2.length → h1.length ≤ 16 →
        VideoHasher.hamming_distance h1 h2 = some (specDiffCount h1 h2))
    ∧ VideoHasher.hamming_distance h1 h2 = VideoHasher.hamming_distance h2 h1
    ∧ VideoHasher.hamming_distance h1 h1 = some 0 := by
  refine ⟨?_, ?_, ?_, ?_⟩
  · unfold VideoHasher.hamming_distance
    by_cases h : h1.length ≠ h2.length
    · simp [h]
    · simp [h]
  · intro hlen hle
    have hpow1 : hashVal h1 < 2 ^ (4 * h1.length) := by
      have := hashVal_lt h1
      rwa [show (16 : Nat) ^ h1.length = 2 ^ (4 * h1.length) by rw [pow_mul]; norm_num] at this
    have hpow2 : hashVal h2 < 2 ^ (4 * h2.length) := by
      have := hashVal_lt h2
      rwa [show (16 : Nat) ^ h2.length = 2 ^ (4 * h2.length) by rw [pow_mul]; norm_num] at this
    have hle64 : 4 * h1.length ≤ 64 := by omega
    have hlt1 : hashVal h1 < 2 ^ 64 :=
      lt_of_lt_of_le hpow1 (Nat.pow_le_pow_right (by norm_num) hle64)
    have hlt2 : hashVal h2 < 2 ^ 64 :=
      lt_of_lt_of_le hpow2 (Nat.pow_le_pow_right (by norm_num) (by omega))
    have e1 : natToBitsFixed 64 (hashVal h1)
        = List.replicate (64 - 4 * h1.length) false
            ++ natToBitsFixed (4 * h1.length) (hashVal h1) := by
      conv_lhs => rw [show (64 : Nat) = (64 - 4 * h1.length) + 4 * h1.length by omega]
      rw [natToBitsFixed_split, Nat.div_eq_of_lt hpow1, Nat.mod_eq_of_lt hpow1,
        natToBitsFixed_zero]
    have e2 : natToBitsFixed 64 (hashVal h2)
        = List.replicate (64 - 4 * h1.length) false
            ++ natToBitsFixed (4 * h2.length) (hashVal h2) := by
      conv_lhs => rw [show (64 : Nat) = (64 - 4 * h2.length) + 4 * h2.length by omega]
      rw [natToBitsFixed_split, Nat.div_eq_of_lt hpow2, Nat.mod_eq_of_lt hpow2,
        natToBitsFixed_zero, hlen]
    unfold VideoHasher.hamming_distance
    rw [if_neg (by omega)]
    rw [zfill_pyBin _ hlt1, zfill_pyBin _ hlt2, e1, e2, countDiff_pad]
    rw [← hexBits_eq, ← hexBits_eq]
    rfl
  · unfold VideoHasher.hamming_distance
    by_cases h : h1.length = h2.length
    · rw [if_neg (by omega), if_neg (by omega), countDiff_comm]
    · rw [if_pos (by omega), if_pos (by omega)]
  · unfold VideoHasher.hamming_distance
    rw [if_neg (by omega), countDiff_self]

theorem C4_witness :
    VideoHasher.hamming_distance [(1 : Fin 16)] [(3 : Fin 16)]
      = some (specDiffCount [(1 : Fin 16)] [(3 : Fin 16)]) :=
  (C4_hamming_distance_correct [(1 : Fin 16)] [(3 : Fin 16)]).2.1 (by decide) (by decide)

/-- C4 counterexample: the 17-hex-digit hashes `0x80000000000000000` and
`0x10000000000000000` have equal length, and their binary representations
differ in 2 bit positions, yet `hamming_distance` reports 0 — the `zip` in the
source silently truncates to the shorter `bin` string when values exceed the
`zfill(64)` width.  So the claim as stated over every pair of hex hash strings
is false. -/
theorem C4_counterexample :
    VideoHasher.hamming_distance
        ((8 : Fin 16) :: List.replicate 16 (0 : Fin 16))
        ((1 : Fin 16) :: List.replicate 16 (0 : Fin 16))
      ≠ some (specDiffCount
        ((8 : Fin 16) :: List.replicate 16 (0 : Fin 16))
        ((1 : Fin 16) :: List.replicate 16 (0 : Fin 16))) := by
  have hv1 : hashVal ((8 : Fin 16) :: List.replicate 16 (0 : Fin 16)) = 2 ^ 67 := by
    rw [hashVal_lead_digit]
    decide
  have hv2 : hashVal ((1 : Fin 16) :: List.replicate 16 (0 : Fin 16)) = 2 ^ 64 := by
    rw [hashVal_lead_digit]
    decide
  have hcode : VideoHasher.hamming_distance
      ((8 : Fin 16) :: List.replicate 16 (0 : Fin 16))
      ((1 : Fin 16) :: List.replicate 16 (0 : Fin 16)) = some 0 := by
    unfold VideoHasher.hamming_distance
    rw [if_neg (by simp)]
    rw [hv1, hv2]
    rw [show pyBin (2 ^ 67) = bitsMSB (2 ^ 67) by simp [pyBin]]
    rw [show pyBin (2 ^ 64) = bitsMSB (2 ^ 64) by simp [pyBin]]
    rw [bitsMSB_pow2, bitsMSB_pow2]
    rw [show zfill 64 (true :: List.replicate 67 false) = true :: List.replicate 67 false by
      unfold zfill; simp]
    rw [show zfill 64 (true :: List.replicate 64 false) = true :: List.replicate 64 false by
      unfold zfill; simp]
    have : countDiff (true :: List.replicate 67 false) (true :: List.replicate 64 false) = 0 := by
      unfold countDiff
      rw [List.zip_cons_cons, List.countP_cons]
      have hz : countDiff (List.replicate 67 false) (List.replicate 64 false) = 0 :=
        countDiff_all_false _ _ (by simp) (by simp)
      unfold countDiff at hz
      rw [hz]
      rfl
    rw [this]
  have hspec : specDiffCount
      ((8 : Fin 16) :: List.replicate 16 (0 : Fin 16))
      ((1 : Fin 16) :: List.replicate 16 (0 : Fin 16)) = 2 := by decide
  rw [hcode, hspec]
  simp

/-! ## Duplicate clustering (`FingerprintDB.find_duplicates`, fingerprint.py)

The store state relevant to clustering is the `video_fingerprints` table read
in rowid (= insertion) order: a list of `(file_path, combined_hash)` pairs.
The code keeps a `processed` set of paths and runs two nested loops over the
same list. -/

namespace FingerprintDB

/-- Inner loop of `find_duplicates`: scan every video, skip the processed
ones, and collect (and mark processed) each video similar to the seed hash.
Returns the collected paths in scan order together with the final processed
set. -/
def innerScan (threshold : Nat) (hash1 : List (Fin 16)) :
    List (String × List (Fin 16)) → List String → (List String × List String)
  | [], processed => ([], processed)
  | v :: rest, processed =>
    if v.1 ∈ processed then innerScan threshold hash1 rest processed
    else if VideoHasher.is_similar hash1 v.2 threshold then
      let r := innerScan threshold hash1 rest (v.1 :: processed)
      (v.1 :: r.1, r.2)
    else innerScan threshold hash1 rest processed

/-- Outer loop of `find_duplicates`: each unprocessed video seeds a group of
itself plus the result of the inner scan; groups of size 1 are dropped. -/
def outerScan (threshold : Nat) (all : List (String × List (Fin 16))) :
    List (String × List (Fin 16)) → List String → List (List String)
  | [], _ => []
  | v :: rest, processed =>
    if v.1 ∈ processed then outerScan threshold all rest processed
    else
      let r := innerScan threshold v.2 all (v.1 :: processed)
      let group := v.1 :: r.1
      if 1 < group.length then group :: outerScan threshold all rest r.2
      else outerScan threshold all rest r.2

/-- Embedding of `FingerprintDB.find_duplicates` on the table contents in
insertion order. -/
def find_duplicates (videos : List (String × List (Fin 16))) (threshold : Nat) :
    List (List String) :=
  outerScan threshold videos videos []

end FingerprintDB

/-- Specification-side seed/star clustering, written the way the spec words
it: take the first remaining video as seed, group it with every later video
within threshold of the seed, recurse on the rest.  (Size-1 groups are kept
here; the comparison with the code filters them.) -/
def seedGroups (threshold : Nat) : List (String × List (Fin 16)) → List (List String)
  | [] => []
  | v :: rest =>
    (v.1 :: (rest.filter (fun w => VideoHasher.is_similar v.2 w.2 threshold)).map Prod.fst)
      :: seedGroups threshold (rest.filter (fun w => !VideoHasher.is_similar v.2 w.2 threshold))
termination_by l => l.length
decreasing_by
  simp only [List.length_cons]
  exact Nat.lt_succ_of_le (List.length_filter_le _ _)

example :
    FingerprintDB.find_duplicates
      [("a", [(0 : Fin 16), 0]), ("b", [(0 : Fin 16), 1]), ("c", [(15 : Fin 16), 15])] 5
      = [["a", "b"]] := by decide


/-! ## Lemmas about the clustering loops -/

theorem innerScan_skip (t : Nat) (h : List (Fin 16)) (pre : List (String × List (Fin 16))) :
    ∀ (rest : List (String × List (Fin 16))) (proc : List String),
      (∀ w ∈ pre, w.1 ∈ proc) →
      FingerprintDB.innerScan t h (pre ++ rest) proc = FingerprintDB.innerScan t h rest proc := by
  induction pre with
  | nil => intro rest proc _; rfl
  | cons v p ih =>
    intro rest proc hpre
    have hv : v.1 ∈ proc := hpre v (by simp)
    show FingerprintDB.innerScan t h (v :: (p ++ rest)) proc = _
    simp only [FingerprintDB.innerScan]
    rw [if_pos hv]
    exact ih rest proc (fun w hw => hpre w (by simp [hw]))

theorem innerScan_processed (t : Nat) (h : List (Fin 16)) :
    ∀ (l : List (String × List (Fin 16))) (proc : List String) (x : String),
      x ∈ (FingerprintDB.innerScan t h l proc).2
        ↔ x ∈ (FingerprintDB.innerScan t h l proc).1 ∨ x ∈ proc := by
  intro l
  induction l with
  | nil =>
    intro proc x
    simp [FingerprintDB.innerScan]
  | cons v rest ih =>
    intro proc x
    by_cases hmem : v.1 ∈ proc
    · simp only [FingerprintDB.innerScan]
      rw [if_pos hmem]
      exact ih proc x
    · by_cases hsim : VideoHasher.is_similar h v.2 t = true
      · simp only [FingerprintDB.innerScan]
        rw [if_neg hmem, if_pos hsim]
        show x ∈ (FingerprintDB.innerScan t h rest (v.1 :: proc)).2
          ↔ x ∈ v.1 :: (FingerprintDB.innerScan t h rest (v.1 :: proc)).1 ∨ x ∈ proc
        rw [ih (v.1 :: proc) x]
        simp only [List.mem_cons]
        tauto
      · simp only [FingerprintDB.innerScan]
        rw [if_neg hmem, if_neg hsim]
        exact ih proc x

theorem innerScan_group (t : Nat) (h : List (Fin 16)) :
    ∀ (l : List (String × List (Fin 16))) (proc : List String),
      (l.map Prod.fst).Nodup →
      (FingerprintDB.innerScan t h l proc).1
        = (l.filter (fun w => decide (w.1 ∉ proc) && VideoHasher.is_similar h w.2 t)).map
            Prod.fst := by
  intro l
  induction l with
  | nil => intro proc _; rfl
  | cons v rest ih =>
    intro proc hnd
    rw [List.map_cons, List.nodup_cons] at hnd
    obtain ⟨hv1, hnd2⟩ := hnd
    by_cases hmem : v.1 ∈ proc
    · simp only [FingerprintDB.innerScan]
      rw [if_pos hmem]
      rw [List.filter_cons_of_neg (by simp [hmem])]
      exact ih proc hnd2
    · by_cases hsim : VideoHasher.is_similar h v.2 t = true
      · simp only [FingerprintDB.innerScan]
        rw [if_neg hmem, if_pos hsim]
        show v.1 :: (FingerprintDB.innerScan t h rest (v.1 :: proc)).1 = _
        rw [ih (v.1 :: proc) hnd2]
        rw [List.filter_cons_of_pos (by simp [hmem, hsim])]
        rw [List.map_cons]
        congr 1
        congr 1
        apply List.filter_congr
        intro w hw
        have hne : w.1 ≠ v.1 := by
          intro hcon
          exact hv1 (hcon ▸ List.mem_map_of_mem Prod.fst hw)
        congr 1
        rw [decide_eq_decide]
        simp [hne]
      · simp only [FingerprintDB.innerScan]
        rw [if_neg hmem, if_neg hsim]
        rw [List.filter_cons_of_neg (by simp [hsim])]
        exact ih proc hnd2

theorem outerScan_spec (t : Nat) (videos : List (String × List (Fin 16)))
    (hnd : (videos.map Prod.fst).Nodup) :
    ∀ (rest pre : List (String × List (Fin 16))) (proc : List String),
      videos = pre ++ rest → (∀ w ∈ pre, w.1 ∈ proc) →
      FingerprintDB.outerScan t videos rest proc
        = (seedGroups t (rest.filter (fun w => decide (w.1 ∉ proc)))).filter
            (fun g => decide (1 < g.length)) := by
  intro rest
  induction rest with
  | nil =>
    intro pre proc _ _
    simp [FingerprintDB.outerScan, seedGroups]
  | cons v rest ih =>
    intro pre proc hsplit hpre
    have hndv : ((pre ++ v :: rest).map Prod.fst).Nodup := hsplit ▸ hnd
    rw [List.map_append] at hndv
    have hndtail : ((v :: rest).map Prod.fst).Nodup := List.Nodup.of_append_right hndv
    rw [List.map_cons, List.nodup_cons] at hndtail
    obtain ⟨hvrest, hndrest⟩ := hndtail
    by_cases hmem : v.1 ∈ proc
    · simp only [FingerprintDB.outerScan]
      rw [if_pos hmem]
      rw [List.filter_cons_of_neg (by simp [hmem])]
      refine ih (pre ++ [v]) proc (by rw [hsplit, List.append_assoc]; rfl) ?_
      intro w hw
      rcases List.mem_append.mp hw with h1 | h1
      · exact hpre w h1
      · have : w = v := by simpa using h1
        rw [this]; exact hmem
    · have hinner : FingerprintDB.innerScan t v.2 videos (v.1 :: proc)
          = FingerprintDB.innerScan t v.2 rest (v.1 :: proc) := by
        rw [hsplit, show pre ++ v :: rest = (pre ++ [v]) ++ rest by simp]
        apply innerScan_skip
        intro w hw
        rcases List.mem_append.mp hw with h1 | h1
        · exact List.mem_cons_of_mem _ (hpre w h1)
        · have : w = v := by simpa using h1
          rw [this]; exact List.mem_cons_self _ _
      have hpre2 : ∀ w ∈ pre ++ [v],
          w.1 ∈ (FingerprintDB.innerScan t v.2 rest (v.1 :: proc)).2 := by
        intro w hw
        rw [innerScan_processed]
        rcases List.mem_append.mp hw with h1 | h1
        · exact Or.inr (List.mem_cons_of_mem _ (hpre w h1))
        · have : w = v := by simpa using h1
          rw [this]; exact Or.inr (List.mem_cons_self _ _)
      have htail := ih (pre ++ [v]) ((FingerprintDB.innerScan t v.2 rest (v.1 :: proc)).2)
        (by rw [hsplit, List.append_assoc]; rfl) hpre2
      have hgroup := innerScan_group t v.2 rest (v.1 :: proc) hndrest
      have hfiltr : rest.filter
            (fun w => decide (w.1 ∉ v.1 :: proc) && VideoHasher.is_similar v.2 w.2 t)
          = rest.filter
            (fun w => decide (w.1 ∉ proc) && VideoHasher.is_similar v.2 w.2 t) := by
        apply List.filter_congr
        intro w hw
        have hne : w.1 ≠ v.1 := fun hcon => hvrest (hcon ▸ List.mem_map_of_mem Prod.fst hw)
        congr 1
        rw [decide_eq_decide]
        simp [hne]
      have hmem1 : ∀ w ∈ rest,
          (w.1 ∈ (FingerprintDB.innerScan t v.2 rest (v.1 :: proc)).1
            ↔ (w.1 ∉ proc ∧ VideoHasher.is_similar v.2 w.2 t = true)) := by
        intro w hw
        have hne : w.1 ≠ v.1 := fun hcon => hvrest (hcon ▸ List.mem_map_of_mem Prod.fst hw)
        rw [hgroup, hfiltr]
        constructor
        · intro hx
          obtain ⟨u, hu, hux⟩ := List.mem_map.mp hx
          have hurest : u ∈ rest := List.mem_of_mem_filter hu
          have huw : u = w := List.inj_on_of_nodup_map hndrest hurest hw hux
          have hpred := List.of_mem_filter hu
          rw [huw] at hpred
          rw [Bool.and_eq_true, decide_eq_true_iff] at hpred
          exact ⟨hpred.1, hpred.2⟩
        · rintro ⟨hnp, hsim⟩
          exact List.mem_map.mpr ⟨w, List.mem_filter.mpr ⟨hw, by simp [hnp, hsim]⟩, rfl⟩
      have hsetq : rest.filter
            (fun w => decide (w.1 ∉ (FingerprintDB.innerScan t v.2 rest (v.1 :: proc)).2))
          = rest.filter
            (fun w => decide (w.1 ∉ proc) && !VideoHasher.is_similar v.2 w.2 t) := by
        apply List.filter_congr
        intro w hw
        have hne : w.1 ≠ v.1 := fun hcon => hvrest (hcon ▸ List.mem_map_of_mem Prod.fst hw)
        have hr2 := innerScan_processed t v.2 rest (v.1 :: proc) w.1
        by_cases hp : w.1 ∈ proc
        · have hin : w.1 ∈ (FingerprintDB.innerScan t v.2 rest (v.1 :: proc)).2 :=
            hr2.mpr (Or.inr (List.mem_cons_of_mem _ hp))
          simp [hin, hp]
        · by_cases hs : VideoHasher.is_similar v.2 w.2 t = true
          · have hin : w.1 ∈ (FingerprintDB.innerScan t v.2 rest (v.1 :: proc)).2 :=
              hr2.mpr (Or.inl ((hmem1 w hw).mpr ⟨hp, hs⟩))
            simp [hin, hp, hs]
          · have hout : w.1 ∉ (FingerprintDB.innerScan t v.2 rest (v.1 :: proc)).2 := by
              rw [hr2]
              rintro (h1 | h1)
              · exact hs ((hmem1 w hw).mp h1).2
              · rcases List.mem_cons.mp h1 with h2 | h2
                · exact hne h2
                · exact hp h2
            simp [hout, hp, hs]
      have hff1 : (rest.filter (fun w => decide (w.1 ∉ proc))).filter
            (fun w => VideoHasher.is_similar v.2 w.2 t)
          = rest.filter (fun w => decide (w.1 ∉ proc) && VideoHasher.is_similar v.2 w.2 t) := by
        rw [List.filter_filter]
        apply List.filter_congr
        intro w _
        exact Bool.and_comm _ _
      have hff2 : (rest.filter (fun w => decide (w.1 ∉ proc))).filter
            (fun w => !VideoHasher.is_similar v.2 w.2 t)
          = rest.filter (fun w => decide (w.1 ∉ proc) && !VideoHasher.is_similar v.2 w.2 t) := by
        rw [List.filter_filter]
        apply List.filter_congr
        intro w _
        exact Bool.and_comm _ _
      simp only [FingerprintDB.outerScan]
      rw [if_neg hmem]
      rw [hinner, hgroup, hfiltr, htail, hsetq]
      rw [List.filter_cons_of_pos (by simp [hmem])]
      simp only [seedGroups]
      rw [hff1, hff2, List.filter_cons]
      by_cases hlen : 1 < (v.1 :: (rest.filter
          (fun w => decide (w.1 ∉ proc) && VideoHasher.is_similar v.2 w.2 t)).map Prod.fst).length
      · rw [if_pos hlen, if_pos (by simpa using hlen)]
      · rw [if_neg hlen, if_neg (by simpa using hlen)]

theorem hamming_distance_self (h : List (Fin 16)) :
    VideoHasher.hamming_distance h h = some 0 := by
  unfold VideoHasher.hamming_distance
  rw [if_neg (by omega), countDiff_self]

theorem is_similar_self (h : List (Fin 16)) (t : Nat) :
    VideoHasher.is_similar h h t = true := by
  unfold VideoHasher.is_similar
  rw [hamming_distance_self]
  simp

theorem seedGroups_members (t : Nat) :
    ∀ (n : Nat) (l : List (String × List (Fin 16))), l.length ≤ n →
      ∀ g ∈ seedGroups t l,
        ∃ s hs tail, g = s :: tail ∧ (s, hs) ∈ l ∧
          ∀ p ∈ tail, ∃ hp, (p, hp) ∈ l ∧ VideoHasher.is_similar hs hp t = true := by
  intro n
  induction n with
  | zero =>
    intro l hl g hg
    have : l = [] := List.eq_nil_of_length_eq_zero (by omega)
    subst this
    simp [seedGroups] at hg
  | succ m ih =>
    intro l hl g hg
    cases l with
    | nil => simp [seedGroups] at hg
    | cons v rest =>
      rw [show seedGroups t (v :: rest)
          = (v.1 :: (rest.filter (fun w => VideoHasher.is_similar v.2 w.2 t)).map Prod.fst)
            :: seedGroups t (rest.filter (fun w => !VideoHasher.is_similar v.2 w.2 t))
          by simp [seedGroups]] at hg
      rcases List.mem_cons.mp hg with hg1 | hg1
      · refine ⟨v.1, v.2,
          (rest.filter (fun w => VideoHasher.is_similar v.2 w.2 t)).map Prod.fst,
          hg1, ⟨by simp, ?_⟩⟩
        intro p hp
        obtain ⟨u, hu, hup⟩ := List.mem_map.mp hp
        refine ⟨u.2, ?_, ?_⟩
        · have : u ∈ rest := List.mem_of_mem_filter hu
          rw [← hup]
          exact List.mem_cons_of_mem _ this
        · have := List.of_mem_filter hu
          exact this
      · have hlen : (rest.filter (fun w => !VideoHasher.is_similar v.2 w.2 t)).length ≤ m := by
          have h1 := List.length_filter_le (fun w => !VideoHasher.is_similar v.2 w.2 t) rest
          simp only [List.length_cons] at hl
          omega
        obtain ⟨s, hs, tail, hgeq, hsmem, htail⟩ := ih _ hlen g hg1
        refine ⟨s, hs, tail, hgeq, ?_, ?_⟩
        · exact List.mem_cons_of_mem _ (List.mem_of_mem_filter hsmem)
        · intro p hp
          obtain ⟨hp2, hpmem, hpsim⟩ := htail p hp
          exact ⟨hp2, List.mem_cons_of_mem _ (List.mem_of_mem_filter hpmem), hpsim⟩

/-- C5: on a store whose table (read in insertion order) has pairwise distinct
file paths, `find_duplicates` computes exactly the seed/star clustering the
spec describes — first remaining video seeds a group of itself plus every
later unvisited video within threshold of the seed — with groups of size 1
discarded; consequently every returned group has size at least 2 and every
member is within threshold of the group's seed. -/
theorem C5_find_duplicates_star_clustering (videos : List (String × List (Fin 16))) (t : Nat)
    (hnd : (videos.map Prod.fst).Nodup) :
    FingerprintDB.find_duplicates videos t
        = (seedGroups t videos).filter (fun g => decide (1 < g.length))
    ∧ (∀ g ∈ FingerprintDB.find_duplicates videos t, 2 ≤ g.length)
    ∧ (∀ g ∈ FingerprintDB.find_duplicates videos t,
        ∃ s hs tail, g = s :: tail ∧ (s, hs) ∈ videos ∧
          VideoHasher.is_similar hs hs t = true ∧
          ∀ p ∈ tail, ∃ hp, (p, hp) ∈ videos ∧ VideoHasher.is_similar hs hp t = true) := by
  have hmain : FingerprintDB.find_duplicates videos t
      = (seedGroups t videos).filter (fun g => decide (1 < g.length)) := by
    have h := outerScan_spec t videos hnd videos [] [] rfl (by simp)
    rw [show videos.filter (fun w => decide (w.1 ∉ ([] : List String))) = videos from
      List.filter_eq_self.mpr (fun w _ => by simp)] at h
    exact h
  refine ⟨hmain, ?_, ?_⟩
  · intro g hg
    rw [hmain] at hg
    have := List.of_mem_filter hg
    rw [decide_eq_true_iff] at this
    omega
  · intro g hg
    rw [hmain] at hg
    have hgs : g ∈ seedGroups t videos := List.mem_of_mem_filter hg
    obtain ⟨s, hs, tail, hgeq, hsmem, htail⟩ :=
      seedGroups_members t videos.length videos (le_refl _) g hgs
    exact ⟨s, hs, tail, hgeq, hsmem, is_similar_self hs t, htail⟩

theorem C5_witness :
    FingerprintDB.find_duplicates
        [("a", [(0 : Fin 16), 0]), ("b", [(0 : Fin 16), 1]), ("c", [(15 : Fin 16), 15])] 5
      = (seedGroups 5
          [("a", [(0 : Fin 16), 0]), ("b", [(0 : Fin 16), 1]), ("c", [(15 : Fin 16), 15])]).filter
          (fun g => decide (1 < g.length)) :=
  (C5_find_duplicates_star_clustering
    [("a", [(0 : Fin 16), 0]), ("b", [(0 : Fin 16), 1]), ("c", [(15 : Fin 16), 15])] 5
    (by decide)).1

/-! ## Deduplication (`FingerprintDB.deduplicate`, fingerprint.py) -/

namespace FingerprintDB

/-- The `duplicate_set` built by `deduplicate`: every member of every
duplicate group except each group's first element (a membership set, modelled
as a list). -/
def duplicateSet (videos : List (String × List (Fin 16))) (threshold : Nat) : List String :=
  (find_duplicates videos threshold).foldl (fun s g => s ++ g.tail) []

/-- Embedding of `FingerprintDB.deduplicate`: keep the input files not marked
as duplicates, in input order. -/
def deduplicate (videos : List (String × List (Fin 16))) (threshold : Nat)
    (file_list : List String) : List String :=
  file_list.filter (fun f => decide (f ∉ duplicateSet videos threshold))

end FingerprintDB

theorem innerScan_fst_subset (t : Nat) (h : List (Fin 16)) :
    ∀ (l : List (String × List (Fin 16))) (proc : List String) (x : String),
      x ∈ (FingerprintDB.innerScan t h l proc).1 → x ∈ l.map Prod.fst := by
  intro l
  induction l with
  | nil => intro proc x hx; simp [FingerprintDB.innerScan] at hx
  | cons v rest ih =>
    intro proc x hx
    by_cases hmem : v.1 ∈ proc
    · simp only [FingerprintDB.innerScan] at hx
      rw [if_pos hmem] at hx
      exact List.mem_cons_of_mem _ (ih proc x hx)
    · by_cases hsim : VideoHasher.is_similar h v.2 t = true
      · simp only [FingerprintDB.innerScan] at hx
        rw [if_neg hmem, if_pos hsim] at hx
        rcases List.mem_cons.mp hx with h1 | h1
        · rw [h1]; simp
        · exact List.mem_cons_of_mem _ (ih (v.1 :: proc) x h1)
      · simp only [FingerprintDB.innerScan] at hx
        rw [if_neg hmem, if_neg hsim] at hx
        exact List.mem_cons_of_mem _ (ih proc x hx)

theorem outerScan_subset (t : Nat) (all : List (String × List (Fin 16))) :
    ∀ (rest : List (String × List (Fin 16))) (proc : List String)
      (g : List String), g ∈ FingerprintDB.outerScan t all rest proc →
      ∀ x ∈ g, x ∈ rest.map Prod.fst ∨ x ∈ all.map Prod.fst := by
  intro rest
  induction rest with
  | nil => intro proc g hg; simp [FingerprintDB.outerScan] at hg
  | cons v rest ih =>
    intro proc g hg x hx
    by_cases hmem : v.1 ∈ proc
    · simp only [FingerprintDB.outerScan] at hg
      rw [if_pos hmem] at hg
      rcases ih proc g hg x hx with h1 | h1
      · exact Or.inl (List.mem_cons_of_mem _ h1)
      · exact Or.inr h1
    · simp only [FingerprintDB.outerScan] at hg
      rw [if_neg hmem] at hg
      by_cases hlen : 1 < (v.1 :: (FingerprintDB.innerScan t v.2 all (v.1 :: proc)).1).length
      · rw [if_pos hlen] at hg
        rcases List.mem_cons.mp hg with h1 | h1
        · subst h1
          rcases List.mem_cons.mp hx with h2 | h2
          · rw [h2]; exact Or.inl (by simp)
          · exact Or.inr (innerScan_fst_subset t v.2 all (v.1 :: proc) x h2)
        · rcases ih _ g h1 x hx with h2 | h2
          · exact Or.inl (List.mem_cons_of_mem _ h2)
          · exact Or.inr h2
      · rw [if_neg hlen] at hg
        rcases ih _ g hg x hx with h1 | h1
        · exact Or.inl (List.mem_cons_of_mem _ h1)
        · exact Or.inr h1

theorem mem_foldl_append_tail (x : String) :
    ∀ (l : List (List String)) (init : List String),
      x ∈ l.foldl (fun s g => s ++ g.tail) init →
      x ∈ init ∨ ∃ g ∈ l, x ∈ g.tail := by
  intro l
  induction l with
  | nil => intro init hx; exact Or.inl hx
  | cons g rest ih =>
    intro init hx
    rcases ih (init ++ g.tail) hx with h1 | h1
    · rcases List.mem_append.mp h1 with h2 | h2
      · exact Or.inl h2
      · exact Or.inr ⟨g, by simp, h2⟩
    · obtain ⟨g2, hg2, hxg2⟩ := h1
      exact Or.inr ⟨g2, List.mem_cons_of_mem _ hg2, hxg2⟩

theorem duplicateSet_subset (videos : List (String × List (Fin 16))) (t : Nat)
    (x : String) (hx : x ∈ FingerprintDB.duplicateSet videos t) :
    x ∈ videos.map Prod.fst := by
  rcases mem_foldl_append_tail x (FingerprintDB.find_duplicates videos t) [] hx with h1 | h1
  · simp at h1
  · obtain ⟨g, hg, hxg⟩ := h1
    have hxg2 : x ∈ g := (List.tail_sublist g).mem hxg
    rcases outerScan_subset t videos videos [] g hg x hxg2 with h2 | h2
    · exact h2
    · exact h2

/-- C7: `deduplicate` is idempotent — it filters the input list by a duplicate
set computed only from the store state, so applying it twice equals applying
it once — and any file with no fingerprint on record is passed through. -/
theorem C7_deduplicate_idempotent (videos : List (String × List (Fin 16))) (t : Nat)
    (L : List String) :
    FingerprintDB.deduplicate videos t (FingerprintDB.deduplicate videos t L)
        = FingerprintDB.deduplicate videos t L
    ∧ ∀ f ∈ L, f ∉ videos.map Prod.fst → f ∈ FingerprintDB.deduplicate videos t L := by
  constructor
  · unfold FingerprintDB.deduplicate
    rw [List.filter_filter]
    apply List.filter_congr
    intro f _
    exact Bool.and_self _
  · intro f hfL hfv
    unfold FingerprintDB.deduplicate
    apply List.mem_filter.mpr
    refine ⟨hfL, ?_⟩
    rw [decide_eq_true_iff]
    intro hdup
    exact hfv (duplicateSet_subset videos t f hdup)

theorem C7_witness :
    FingerprintDB.deduplicate
        [("a", [(0 : Fin 16), 0]), ("b", [(0 : Fin 16), 1]), ("c", [(15 : Fin 16), 15])] 5
        (FingerprintDB.deduplicate
          [("a", [(0 : Fin 16), 0]), ("b", [(0 : Fin 16), 1]), ("c", [(15 : Fin 16), 15])] 5
          ["a", "b", "c", "d"])
      = FingerprintDB.deduplicate
          [("a", [(0 : Fin 16), 0]), ("b", [(0 : Fin 16), 1]), ("c", [(15 : Fin 16), 15])] 5
          ["a", "b", "c", "d"]
    ∧ "d" ∈ FingerprintDB.deduplicate
        [("a", [(0 : Fin 16), 0]), ("b", [(0 : Fin 16), 1]), ("c", [(15 : Fin 16), 15])] 5
        ["a", "b", "c", "d"] :=
  ⟨(C7_deduplicate_idempotent
      [("a", [(0 : Fin 16), 0]), ("b", [(0 : Fin 16), 1]), ("c", [(15 : Fin 16), 15])] 5
      ["a", "b", "c", "d"]).1,
   (C7_deduplicate_idempotent
      [("a", [(0 : Fin 16), 0]), ("b", [(0 : Fin 16), 1]), ("c", [(15 : Fin 16), 15])] 5
      ["a", "b", "c", "d"]).2 "d" (by decide) (by decide)⟩

/-! ## The fingerprint store (`FingerprintDB`, fingerprint.py)

The sqlite database is modelled as its two tables in rowid order plus the
AUTOINCREMENT sequence counters (AUTOINCREMENT never reuses an id, so a
counter larger than every stored id is the faithful model).  `INSERT OR
REPLACE` on `video_fingerprints` deletes any row with the conflicting unique
`file_path` and inserts a fresh row with a fresh id; on `frame_hashes` the
only uniqueness constraint is the primary key, so every insert is a plain
append. -/

structure FrameHashEntry where
  timestamp : ℚ
  phash : String
deriving DecidableEq

structure Fingerprint where
  video_path : String
  duration : ℚ
  total_frames : Nat
  sampled_frames : Nat
  frame_hashes : List FrameHashEntry
  combined_hash : String
deriving DecidableEq

structure VideoRow where
  id : Nat
  file_path : String
  file_name : String
  combined_hash : String
  duration : ℚ
  file_size : Nat
  width : Nat
  height : Nat
  fps : ℚ
deriving DecidableEq

structure FrameRow where
  id : Nat
  video_id : Nat
  timestamp : ℚ
  phash : String
deriving DecidableEq

structure FingerprintStore where
  videoRows : List VideoRow
  frameRows : List FrameRow
  nextVideoId : Nat
  nextFrameId : Nat
deriving DecidableEq

/-- A freshly initialised store (sqlite rowids start at 1). -/
def emptyStore : FingerprintStore := ⟨[], [], 1, 1⟩

structure StoreStats where
  video_count : Nat
  total_size_gb : ℚ
  total_duration_hours : ℚ
  frame_samples : Nat
deriving DecidableEq

namespace FingerprintDB

/-- Embedding of `FingerprintDB.add_video`.  The video metadata the code reads
back from the file (`width`, `height`, `fps` via cv2 and `file_size` via
`stat`) are explicit inputs.  Returns `cursor.lastrowid` with the new store. -/
def add_video (st : FingerprintStore) (fp : Fingerprint) (width height : Nat)
    (fps : ℚ) (file_size : Nat) : Nat × FingerprintStore :=
  let vid := st.nextVideoId
  let newRow : VideoRow :=
    { id := vid, file_path := fp.video_path, file_name := pathName fp.video_path,
      combined_hash := fp.combined_hash, duration := fp.duration,
      file_size := file_size, width := width, height := height, fps := fps }
  let newFrames := fp.frame_hashes.enum.map (fun p =>
    ({ id := st.nextFrameId + p.1, video_id := vid,
       timestamp := p.2.timestamp, phash := p.2.phash } : FrameRow))
  (vid,
    { videoRows := st.videoRows.filter (fun r => decide (r.file_path ≠ fp.video_path)) ++ [newRow],
      frameRows := st.frameRows ++ newFrames,
      nextVideoId := vid + 1,
      nextFrameId := st.nextFrameId + fp.frame_hashes.length })

/-- Embedding of `FingerprintDB.get_stats`: aggregates over the two tables as
the SQL queries do — note the frame count is over the whole `frame_hashes`
table, orphaned rows included. -/
def get_stats (st : FingerprintStore) : StoreStats :=
  { video_count := st.videoRows.length,
    total_size_gb := ((st.videoRows.map (fun r => (r.file_size : ℚ))).sum) / (1024 ^ 3),
    total_duration_hours := ((st.videoRows.map (fun r => r.duration)).sum) / 3600,
    frame_samples := st.frameRows.length }

end FingerprintDB

/-- C1 (amended): `add_video` leaves exactly one video row for the inserted
path, and the frame rows joined to the new video id are exactly the
fingerprint's frame hashes; however the prior fingerprint's frame rows are
NOT deleted — they all remain in the `frame_hashes` table (orphaned, no
longer joined to any video, but still counted by `get_stats`). -/
theorem add_video_def (st : FingerprintStore) (fp : Fingerprint) (width height : Nat)
    (fps : ℚ) (file_size : Nat) :
    FingerprintDB.add_video st fp width height fps file_size
      = (st.nextVideoId,
        { videoRows := st.videoRows.filter (fun r => decide (r.file_path ≠ fp.video_path))
            ++ [{ id := st.nextVideoId, file_path := fp.video_path,
                  file_name := pathName fp.video_path,
                  combined_hash := fp.combined_hash, duration := fp.duration,
                  file_size := file_size, width := width, height := height, fps := fps }],
          frameRows := st.frameRows ++ fp.frame_hashes.enum.map (fun p =>
            ({ id := st.nextFrameId + p.1, video_id := st.nextVideoId,
               timestamp := p.2.timestamp, phash := p.2.phash } : FrameRow)),
          nextVideoId := st.nextVideoId + 1,
          nextFrameId := st.nextFrameId + fp.frame_hashes.length }) := rfl

theorem C1_add_video_replaces (st : FingerprintStore) (fp : Fingerprint)
    (width height : Nat) (fps : ℚ) (file_size : Nat)
    (hwf : ∀ fr ∈ st.frameRows, fr.video_id < st.nextVideoId) :
    ((FingerprintDB.add_video st fp width height fps file_size).2.videoRows.filter
        (fun v => decide (v.file_path = fp.video_path))).length = 1
    ∧ ((FingerprintDB.add_video st fp width height fps file_size).2.frameRows.filter
        (fun fr => decide (fr.video_id
          = (FingerprintDB.add_video st fp width height fps file_size).1))).map
        (fun fr => (fr.timestamp, fr.phash))
        = fp.frame_hashes.map (fun e => (e.timestamp, e.phash))
    ∧ st.frameRows.Sublist
        (FingerprintDB.add_video st fp width height fps file_size).2.frameRows := by
  rw [add_video_def]
  dsimp only
  refine ⟨?_, ?_, ?_⟩
  · rw [List.filter_append, List.filter_filter]
    rw [show (st.videoRows.filter (fun a =>
        decide (a.file_path = fp.video_path) && decide (a.file_path ≠ fp.video_path)))
        = st.videoRows.filter (fun _ => false) by
      apply List.filter_congr
      intro r _
      by_cases h : r.file_path = fp.video_path <;> simp [h]]
    simp
  · rw [List.filter_append]
    rw [show st.frameRows.filter (fun fr => decide (fr.video_id = st.nextVideoId))
        = st.frameRows.filter (fun _ => false) by
      apply List.filter_congr
      intro fr hfr
      have := hwf fr hfr
      simp
      omega]
    have hkeep : (fp.frame_hashes.enum.map (fun p =>
        ({ id := st.nextFrameId + p.1, video_id := st.nextVideoId,
           timestamp := p.2.timestamp, phash := p.2.phash } : FrameRow))).filter
          (fun fr => decide (fr.video_id = st.nextVideoId))
        = fp.frame_hashes.enum.map (fun p =>
        ({ id := st.nextFrameId + p.1, video_id := st.nextVideoId,
           timestamp := p.2.timestamp, phash := p.2.phash } : FrameRow)) := by
      apply List.filter_eq_self.mpr
      intro fr hfr
      obtain ⟨p, _, hp⟩ := List.mem_map.mp hfr
      rw [← hp]
      simp
    rw [hkeep]
    simp only [List.filter_false, List.nil_append, List.map_map]
    rw [show ((fun fr => (fr.timestamp, fr.phash)) ∘ (fun p =>
        ({ id := st.nextFrameId + p.1, video_id := st.nextVideoId,
           timestamp := p.2.timestamp, phash := p.2.phash } : FrameRow)))
        = (fun e => (e.timestamp, e.phash)) ∘ (Prod.snd
            : Nat × FrameHashEntry → FrameHashEntry) by
      funext p
      rfl]
    rw [← List.map_map]
    congr 1
    exact List.enumFrom_map_snd 0 fp.frame_hashes
  · exact List.sublist_append_left _ _

theorem C1_witness :
    ((FingerprintDB.add_video
        ⟨[⟨1, "clips/a.mp4", "a.mp4", "h1", 1, 100, 640, 480, 30⟩],
          [⟨1, 1, 0, "aa"⟩], 2, 2⟩
        ⟨"clips/a.mp4", 1, 30, 1, [⟨0, "bb"⟩], "h2"⟩
        640 480 30 100).2.videoRows.filter
        (fun v => decide (v.file_path = "clips/a.mp4"))).length = 1 :=
  (C1_add_video_replaces
    ⟨[⟨1, "clips/a.mp4", "a.mp4", "h1", 1, 100, 640, 480, 30⟩], [⟨1, 1, 0, "aa"⟩], 2, 2⟩
    ⟨"clips/a.mp4", 1, 30, 1, [⟨0, "bb"⟩], "h2"⟩
    640 480 30 100 (by decide)).1

/-- C1 counterexample: re-inserting a fingerprint for `clips/a.mp4` whose new
frame hash list is `["bb"]` over a store whose prior fingerprint for the same
path had frame hash `"aa"` leaves the `"aa"` frame row in the table (the
`frame_hashes` table now holds 2 rows, counted by `get_stats`), refuting
"the prior fingerprint's frame hashes are no longer visible". -/
theorem C1_counterexample :
    ¬ (∀ fr ∈ (FingerprintDB.add_video
        ⟨[⟨1, "clips/a.mp4", "a.mp4", "h1", 1, 100, 640, 480, 30⟩],
          [⟨1, 1, 0, "aa"⟩], 2, 2⟩
        ⟨"clips/a.mp4", 1, 30, 1, [⟨0, "bb"⟩], "h2"⟩
        640 480 30 100).2.frameRows,
        (fr.timestamp, fr.phash) ∈ (([⟨0, "bb"⟩] : List FrameHashEntry).map
          (fun e => (e.timestamp, e.phash))))
    ∧ (FingerprintDB.get_stats (FingerprintDB.add_video
        ⟨[⟨1, "clips/a.mp4", "a.mp4", "h1", 1, 100, 640, 480, 30⟩],
          [⟨1, 1, 0, "aa"⟩], 2, 2⟩
        ⟨"clips/a.mp4", 1, 30, 1, [⟨0, "bb"⟩], "h2"⟩
        640 480 30 100).2).frame_samples = 2 := by
  constructor
  · intro hall
    have := hall ⟨1, 1, 0, "aa"⟩ (by decide)
    simp at this
  · decide

/-! ## Scanning (`FingerprintDB.scan_and_index`, fingerprint.py)

Each candidate file is modelled with the outcome the external world gives it:
either the computed fingerprint plus the metadata `add_video` reads back, or
the exception raised while fingerprinting/inserting it.  The embedding
returns the indexed count, the list of `progress_callback` invocations (in
order, with their arguments), and the final store. -/

structure FileProbe where
  path : String
  outcome : Except String (Fingerprint × Nat × Nat × ℚ × Nat)

namespace FingerprintDB

/-- Loop body of `scan_and_index` over the enumerated file list: on success,
index the file, bump the count and invoke the callback with `(i + 1, total)`;
on a per-file exception, log and skip (no callback). -/
def scanLoop (total : Nat) :
    List FileProbe → Nat → FingerprintStore → Nat × List (Nat × Nat) × FingerprintStore
  | [], _, st => (0, [], st)
  | f :: rest, i, st =>
    match f.outcome with
    | Except.error _ => scanLoop total rest (i + 1) st
    | Except.ok (fp, w, h, fps, sz) =>
      let st2 := (add_video st fp w h fps sz).2
      let r := scanLoop total rest (i + 1) st2
      (r.1 + 1, (i + 1, total) :: r.2.1, r.2.2)

/-- Embedding of `FingerprintDB.scan_and_index` on the discovered file list. -/
def scan_and_index (st : FingerprintStore) (files : List FileProbe) :
    Nat × List (Nat × Nat) × FingerprintStore :=
  scanLoop files.length files 0 st

end FingerprintDB

theorem scanLoop_spec (total : Nat) :
    ∀ (files : List FileProbe) (i : Nat) (st : FingerprintStore),
      (FingerprintDB.scanLoop total files i st).1
          = files.countP (fun f => f.outcome.isOk)
      ∧ (FingerprintDB.scanLoop total files i st).2.1
          = ((files.enumFrom i).filter (fun p => p.2.outcome.isOk)).map
              (fun p => (p.1 + 1, total)) := by
  intro files
  induction files with
  | nil =>
    intro i st
    simp [FingerprintDB.scanLoop]
  | cons f rest ih =>
    intro i st
    rw [List.enumFrom_cons]
    cases hout : f.outcome with
    | error e =>
      have hok : f.outcome.isOk = false := by rw [hout]; rfl
      constructor
      · show (FingerprintDB.scanLoop total (f :: rest) i st).1 = _
        rw [show FingerprintDB.scanLoop total (f :: rest) i st
            = FingerprintDB.scanLoop total rest (i + 1) st by
          simp [FingerprintDB.scanLoop, hout]]
        rw [(ih (i + 1) st).1]
        simp [List.countP_cons, hok]
      · show (FingerprintDB.scanLoop total (f :: rest) i st).2.1 = _
        rw [show FingerprintDB.scanLoop total (f :: rest) i st
            = FingerprintDB.scanLoop total rest (i + 1) st by
          simp [FingerprintDB.scanLoop, hout]]
        rw [(ih (i + 1) st).2]
        rw [List.filter_cons_of_neg (by simp [hok])]
    | ok v =>
      obtain ⟨fp, w, h, fps, sz⟩ := v
      have hok : f.outcome.isOk = true := by rw [hout]; rfl
      have hstep : FingerprintDB.scanLoop total (f :: rest) i st
          = ((FingerprintDB.scanLoop total rest (i + 1)
              (FingerprintDB.add_video st fp w h fps sz).2).1 + 1,
             (i + 1, total) :: (FingerprintDB.scanLoop total rest (i + 1)
              (FingerprintDB.add_video st fp w h fps sz).2).2.1,
             (FingerprintDB.scanLoop total rest (i + 1)
              (FingerprintDB.add_video st fp w h fps sz).2).2.2) := by
        simp [FingerprintDB.scanLoop, hout]
      constructor
      · rw [hstep]
        show (FingerprintDB.scanLoop total rest (i + 1) _).1 + 1 = _
        rw [(ih (i + 1) (FingerprintDB.add_video st fp w h fps sz).2).1]
        simp [List.countP_cons, hok]
      · rw [hstep]
        show (i + 1, total) :: (FingerprintDB.scanLoop total rest (i + 1) _).2.1 = _
        rw [(ih (i + 1) (FingerprintDB.add_video st fp w h fps sz).2).2]
        rw [List.filter_cons_of_pos (by simp [hok])]
        rfl

/-- C2 (amended): `scan_and_index` over N files of which k fail returns
N - k (the number of successfully indexed files) and does not abort on
per-file failures; but `progress_callback` is invoked exactly N - k times —
once after each SUCCESSFUL file, with arguments `(overall position, N)` —
and not at all for failed files. -/
theorem C2_scan_and_index_progress (st : FingerprintStore) (files : List FileProbe) :
    (FingerprintDB.scan_and_index st files).1
        = files.countP (fun f => f.outcome.isOk)
    ∧ (FingerprintDB.scan_and_index st files).2.1
        = (files.enum.filter (fun p => p.2.outcome.isOk)).map
            (fun p => (p.1 + 1, files.length))
    ∧ (FingerprintDB.scan_and_index st files).2.1.length
        = files.countP (fun f => f.outcome.isOk) := by
  have h := scanLoop_spec files.length files 0 st
  refine ⟨h.1, h.2, ?_⟩
  show (FingerprintDB.scanLoop files.length files 0 st).2.1.length = _
  rw [h.2, List.length_map, ← List.countP_eq_length_filter]
  rw [show (fun p : Nat × FileProbe => p.2.outcome.isOk)
      = (fun f : FileProbe => f.outcome.isOk) ∘ Prod.snd from rfl]
  rw [← List.countP_map, List.enumFrom_map_snd]

/-- C2 counterexample: a directory with one corrupt file and two valid files —
`scan_and_index` returns 2 and does not abort, but the progress callback is
invoked only twice (after each successful file), not 3 times as claimed. -/
theorem C2_counterexample :
    (FingerprintDB.scan_and_index emptyStore
        [⟨"bad.mp4", Except.error "decode error"⟩,
         ⟨"a.mp4", Except.ok (⟨"a.mp4", 1, 30, 1, [⟨0, "aa"⟩], "ha"⟩, 640, 480, 30, 100)⟩,
         ⟨"b.mp4", Except.ok (⟨"b.mp4", 1, 30, 1, [⟨0, "bb"⟩], "hb"⟩, 640, 480, 30, 100)⟩]).1
      = 2
    ∧ (FingerprintDB.scan_and_index emptyStore
        [⟨"bad.mp4", Except.error "decode error"⟩,
         ⟨"a.mp4", Except.ok (⟨"a.mp4", 1, 30, 1, [⟨0, "aa"⟩], "ha"⟩, 640, 480, 30, 100)⟩,
         ⟨"b.mp4", Except.ok (⟨"b.mp4", 1, 30, 1, [⟨0, "bb"⟩], "hb"⟩, 640, 480, 30, 100)⟩]).2.1
      = [(2, 3), (3, 3)]
    ∧ (FingerprintDB.scan_and_index emptyStore
        [⟨"bad.mp4", Except.error "decode error"⟩,
         ⟨"a.mp4", Except.ok (⟨"a.mp4", 1, 30, 1, [⟨0, "aa"⟩], "ha"⟩, 640, 480, 30, 100)⟩,
         ⟨"b.mp4", Except.ok (⟨"b.mp4", 1, 30, 1, [⟨0, "bb"⟩], "hb"⟩, 640, 480, 30, 100)⟩]).2.1.length
      ≠ 3 := by
  refine ⟨by decide, by decide, by decide⟩

/-! ## Fingerprinting a video (`VideoHasher.compute_video_fingerprint`)

The decoding capability is an explicit input: `readHash i` models positioning
the capture at frame `i`, reading it and hashing it (`none` models a failed
`cap.read()`); `digest` models the md5 digest over the serialized frame-hash
list.  Python `range(0, total_frames, step)` raises `ValueError` when `step`
is 0; this is modelled by the `Except.error` branch. -/

/-- The indices of Python `range(0, stop, step)` for a positive step. -/
def sampleIdxs (stop step : Nat) : List Nat :=
  (List.range ((stop + step - 1) / step)).map (fun k => k * step)

namespace VideoHasher

/-- Embedding of `VideoHasher.compute_video_fingerprint`.  The sampling step
is `int(fps * sample_interval)`; a zero step makes Python `range` raise
`ValueError` before any frame is read. -/
def compute_video_fingerprint (readHash : Nat → Option String)
    (digest : List FrameHashEntry → String) (fps : ℚ) (total_frames : Nat)
    (video_path : String) (sample_interval : ℚ) : Except String Fingerprint :=
  let duration : ℚ := if 0 < fps then (total_frames : ℚ) / fps else 0
  let step : Int := pyTrunc (fps * sample_interval)
  if step = 0 then Except.error "range arg 3 must not be zero"
  else
    let idxs : List Nat := if step < 0 then [] else sampleIdxs total_frames step.toNat
    let frame_hashes := idxs.filterMap (fun i =>
      (readHash i).map (fun h => ({ timestamp := (i : ℚ) / fps, phash := h } : FrameHashEntry)))
    Except.ok
      { video_path := video_path, duration := duration, total_frames := total_frames,
        sampled_frames := frame_hashes.length, frame_hashes := frame_hashes,
        combined_hash := digest frame_hashes }

end VideoHasher

/-- C8: the claim is RIGHT and the code is WRONG.  With a reported frame rate
of zero (or below 1 frame/second) the sampling step `int(fps * 1.0)` is 0 and
`range(0, total_frames, 0)` raises `ValueError`, so `compute_video_fingerprint`
raises instead of returning an empty fingerprint — even though the function
explicitly guards `fps > 0` when computing the duration.  A video whose frames
all fail to decode but whose metadata is sane does return the empty
fingerprint, as the claim describes. -/
theorem C8_zero_fps_raises :
    (VideoHasher.compute_video_fingerprint (fun _ => none) (fun _ => "d41d8cd98f00b204")
        0 30 "v.mp4" 1).toOption = none
    ∧ (VideoHasher.compute_video_fingerprint (fun _ => none) (fun _ => "d41d8cd98f00b204")
        (1/2) 30 "v.mp4" 1).toOption = none
    ∧ (VideoHasher.compute_video_fingerprint (fun _ => none) (fun _ => "d41d8cd98f00b204")
        30 30 "v.mp4" 1).toOption
      = some { video_path := "v.mp4", duration := 1, total_frames := 30,
               sampled_frames := 0, frame_hashes := [],
               combined_hash := "d41d8cd98f00b204" } := by
  refine ⟨?_, ?_, ?_⟩
  · have e : pyTrunc (0 : ℚ) = 0 := by norm_num [pyTrunc]
    simp [VideoHasher.compute_video_fingerprint, e, Except.toOption]
  · have e : pyTrunc ((2 : ℚ)⁻¹) = 0 := by norm_num [pyTrunc]
    simp [VideoHasher.compute_video_fingerprint, e, Except.toOption]
  · have e : pyTrunc (30 : ℚ) = 30 := by norm_num [pyTrunc]
    have e2 : ((30 : Int)).toNat = 30 := by decide
    simp [VideoHasher.compute_video_fingerprint, e, e2, Except.toOption, sampleIdxs]

/-! ## The semantic index (`SemanticIndex`, semantic.py)

The in-memory index is the pair of Python dicts `vectors` and `metadata`,
modelled as association lists in insertion order with Python dict update
semantics.  The CLIP encoder is an explicit input (`encode_text`, and for
indexing a combined extract-frame-and-encode function); similarity is the
rational dot product. -/

structure ClipMeta where
  file_path : String
  file_name : String
  start_time : ℚ
  end_time : ℚ
  duration : ℚ
  mid_time : ℚ
deriving DecidableEq

structure SemState where
  vectors : List (String × List ℚ)
  metadata : List (String × ClipMeta)
deriving DecidableEq

/-- `np.dot` over rational vectors. -/
def dot (xs ys : List ℚ) : ℚ := ((xs.zip ys).map (fun p => p.1 * p.2)).sum

/-- One entry of the `search` result list: the metadata copy extended with
`clip_id` and `similarity_score`. -/
structure SearchResult where
  clip_id : String
  similarity_score : ℚ
  meta : ClipMeta
deriving DecidableEq

namespace SemanticIndex

/-- The similarity-collection loop of `search`: for each indexed vector, read
its metadata (`none` models the `KeyError` when the metadata dict misses the
clip id), skip clips shorter than `min_duration`, otherwise record
`(clip_id, metadata, dot(query_vec, vec))`. -/
def collectSims (metadata : List (String × ClipMeta)) (query_vec : List ℚ)
    (min_duration : ℚ) : List (String × List ℚ) → Option (List (String × ClipMeta × ℚ))
  | [] => some []
  | (cid, vec) :: rest =>
    match lookupA metadata cid with
    | none => none
    | some meta =>
      if meta.duration < min_duration then collectSims metadata query_vec min_duration rest
      else (collectSims metadata query_vec min_duration rest).map
        (fun l => (cid, meta, dot query_vec vec) :: l)

/-- Embedding of `SemanticIndex.search`.  Returns the result (or `none` for a
raised error) together with the state after the call (the method only reads
the two dicts and never calls `_save_index`, and the embedding threads the
state through unchanged accordingly). -/
def search (encode_text : String → List ℚ) (st : SemState) (query : String)
    (top_k : Nat) (min_duration : ℚ) : Option (List SearchResult) × SemState :=
  if st.vectors = [] then (some [], st)
  else
    match collectSims st.metadata (encode_text query) min_duration st.vectors with
    | none => (none, st)
    | some sims =>
      let sorted := List.insertionSort (fun a b => b.2.2 ≤ a.2.2) sims
      let results := (sorted.take top_k).map (fun p =>
        ({ clip_id := p.1, similarity_score := p.2.2, meta := p.2.1 } : SearchResult))
      (some results, st)

end SemanticIndex

instance : IsTotal (String × ClipMeta × ℚ) (fun a b => b.2.2 ≤ a.2.2) :=
  ⟨fun a b => le_total b.2.2 a.2.2⟩

instance : IsTrans (String × ClipMeta × ℚ) (fun a b => b.2.2 ≤ a.2.2) :=
  ⟨fun _ _ _ hab hbc => le_trans hbc hab⟩

theorem collectSims_duration (metadata : List (String × ClipMeta)) (query_vec : List ℚ)
    (min_duration : ℚ) :
    ∀ (l : List (String × List ℚ)) (sims : List (String × ClipMeta × ℚ)),
      SemanticIndex.collectSims metadata query_vec min_duration l = some sims →
      ∀ p ∈ sims, min_duration ≤ p.2.1.duration := by
  intro l
  induction l with
  | nil =>
    intro sims hs p hp
    simp [SemanticIndex.collectSims] at hs
    subst hs
    simp at hp
  | cons v rest ih =>
    intro sims hs p hp
    obtain ⟨cid, vec⟩ := v
    simp only [SemanticIndex.collectSims] at hs
    cases hlk : lookupA metadata cid with
    | none => simp only [hlk] at hs; exact absurd hs (by simp)
    | some meta =>
      simp only [hlk] at hs
      by_cases hdur : meta.duration < min_duration
      · rw [if_pos hdur] at hs
        exact ih sims hs p hp
      · rw [if_neg hdur] at hs
        cases hrec : SemanticIndex.collectSims metadata query_vec min_duration rest with
        | none => rw [hrec] at hs; exact absurd hs (by simp)
        | some sims2 =>
          rw [hrec] at hs
          simp only [Option.map] at hs
          rw [Option.some.injEq] at hs
          rw [← hs] at hp
          rcases List.mem_cons.mp hp with h1 | h1
          · rw [h1]
            simpa using le_of_not_lt hdur
          · exact ih sims2 hrec p h1

/-- C6: `search` returns the empty result (not an error) on an empty index;
and whenever it returns a result list, the list has at most `top_k` entries,
every entry's clip duration is at least `min_duration`, and the entries are
sorted by descending similarity score. -/
theorem C6_search_contract (encode_text : String → List ℚ) (st : SemState)
    (query : String) (top_k : Nat) (min_duration : ℚ) :
    (st.vectors = [] →
      (SemanticIndex.search encode_text st query top_k min_duration).1 = some [])
    ∧ ∀ rs, (SemanticIndex.search encode_text st query top_k min_duration).1 = some rs →
        rs.length ≤ top_k
        ∧ (∀ r ∈ rs, min_duration ≤ r.meta.duration)
        ∧ rs.Pairwise (fun a b => b.similarity_score ≤ a.similarity_score) := by
  constructor
  · intro hempty
    unfold SemanticIndex.search
    rw [if_pos hempty]
  · intro rs hrs
    unfold SemanticIndex.search at hrs
    by_cases hempty : st.vectors = []
    · rw [if_pos hempty] at hrs
      simp only [Prod.fst] at hrs
      have : rs = [] := by
        have := hrs
        simp at this
        exact this
      subst this
      simp
    · rw [if_neg hempty] at hrs
      cases hcol : SemanticIndex.collectSims st.metadata (encode_text query)
          min_duration st.vectors with
      | none => rw [hcol] at hrs; simp at hrs
      | some sims =>
        rw [hcol] at hrs
        simp only at hrs
        have hrs2 : rs = (List.map (fun p =>
            ({ clip_id := p.1, similarity_score := p.2.2, meta := p.2.1 } : SearchResult))
            (List.insertionSort (fun a b => b.2.2 ≤ a.2.2) sims)).take top_k := by
          have := hrs
          simp at this
          exact this.symm
        subst hrs2
        refine ⟨?_, ?_, ?_⟩
        · rw [List.length_take]
          exact min_le_left _ _
        · intro r hr
          have hr2 : r ∈ List.map (fun p =>
              ({ clip_id := p.1, similarity_score := p.2.2, meta := p.2.1 } : SearchResult))
              (List.insertionSort (fun a b => b.2.2 ≤ a.2.2) sims) :=
            (List.take_sublist _ _).mem hr
          obtain ⟨p, hp, hpr⟩ := List.mem_map.mp hr2
          have hp3 : p ∈ sims := (List.perm_insertionSort _ sims).mem_iff.mp hp
          have := collectSims_duration st.metadata (encode_text query) min_duration
            st.vectors sims hcol p hp3
          rw [← hpr]
          exact this
        · have hsorted : List.Sorted (fun a b => b.2.2 ≤ a.2.2)
              (List.insertionSort (fun a b => b.2.2 ≤ a.2.2) sims) :=
            List.sorted_insertionSort _ sims
          have hmap : List.Pairwise
              (fun a b : SearchResult => b.similarity_score ≤ a.similarity_score)
              (List.map (fun p =>
                ({ clip_id := p.1, similarity_score := p.2.2, meta := p.2.1 } : SearchResult))
                (List.insertionSort (fun a b => b.2.2 ≤ a.2.2) sims)) :=
            hsorted.map _ (fun a b hab => hab)
          exact hmap.sublist (List.take_sublist _ _)

theorem C6_witness :
    ([] : List SearchResult).length ≤ 5
    ∧ (SemanticIndex.search (fun _ => []) ⟨[], []⟩ "sunset" 5 3).1 = some [] := by
  have h := C6_search_contract (fun _ => []) ⟨[], []⟩ "sunset" 5 3
  have h1 := h.1 rfl
  exact ⟨(h.2 [] h1).1, h1⟩

/-- C10: `search` is read-only — the index state (both the vectors dict and
the metadata dict) after the call is exactly the state before it, in every
branch including the error branch; nothing is persisted. -/
theorem C10_search_readonly (encode_text : String → List ℚ) (st : SemState)
    (query : String) (top_k : Nat) (min_duration : ℚ) :
    (SemanticIndex.search encode_text st query top_k min_duration).2 = st
    ∧ (SemanticIndex.search encode_text st query top_k min_duration).2.vectors = st.vectors
    ∧ (SemanticIndex.search encode_text st query top_k min_duration).2.metadata
        = st.metadata := by
  have h : (SemanticIndex.search encode_text st query top_k min_duration).2 = st := by
    unfold SemanticIndex.search
    by_cases hempty : st.vectors = []
    · rw [if_pos hempty]
    · rw [if_neg hempty]
      cases SemanticIndex.collectSims st.metadata (encode_text query)
          min_duration st.vectors <;> rfl
  exact ⟨h, by rw [h], by rw [h]⟩

/-! ## Indexing a video (`SemanticIndex.index_video`, semantic.py)

`getVec mid_time` models the composition of `_extract_frame` at the window
midpoint and `encoder.encode_image` (`none` covers both a failed frame read
and an encoding exception, each of which skips the window only).  The clip id
is built from the file STEM only: `f"{Path(video_path).stem}_{i:04d}"`.
`clip_duration` is assumed nonzero (Python would raise `ZeroDivisionError`
in `int(duration / clip_duration)` otherwise). -/

namespace SemanticIndex

/-- The clip id `index_video` generates for window `i` of a video. -/
def clipId (video_path : String) (i : Nat) : String :=
  pathStem video_path ++ "_" ++ pad4 i

/-- The metadata record `index_video` stores for window `i`. -/
def windowMeta (video_path : String) (start_time end_time : ℚ) : ClipMeta :=
  { file_path := video_path, file_name := pathName video_path,
    start_time := start_time, end_time := end_time,
    duration := end_time - start_time, mid_time := (start_time + end_time) / 2 }

/-- The per-window loop of `index_video` over the window indices: skip
windows shorter than 1 second and windows whose frame cannot be extracted or
encoded; store vector and metadata under the generated clip id (Python dict
update semantics) and collect the id. -/
def indexLoop (getVec : ℚ → Option (List ℚ)) (duration clip_duration : ℚ)
    (video_path : String) : List Nat → SemState → List String × SemState
  | [], st => ([], st)
  | i :: is, st =>
    let start_time := (i : ℚ) * clip_duration
    let end_time := min (((i : ℚ) + 1) * clip_duration) duration
    if end_time - start_time < 1 then
      indexLoop getVec duration clip_duration video_path is st
    else
      match getVec ((start_time + end_time) / 2) with
      | none => indexLoop getVec duration clip_duration video_path is st
      | some vec =>
        let cid := clipId video_path i
        let st2 : SemState :=
          { vectors := dictUpsert st.vectors cid vec,
            metadata := dictUpsert st.metadata cid
              (windowMeta video_path start_time end_time) }
        let r := indexLoop getVec duration clip_duration video_path is st2
        (cid :: r.1, r.2)

/-- Embedding of `SemanticIndex.index_video`. -/
def index_video (getVec : ℚ → Option (List ℚ)) (fps : ℚ) (total_frames : Nat)
    (video_path : String) (clip_duration : ℚ) (st : SemState) :
    List String × SemState :=
  let duration : ℚ := if 0 < fps then (total_frames : ℚ) / fps else 0
  let num_clips := (pyTrunc (duration / clip_duration)).toNat + 1
  indexLoop getVec duration clip_duration video_path (List.range num_clips) st

end SemanticIndex

theorem find?_update {α : Type} (m : List (String × α)) (k : String) (v : α) :
    (m.map (fun p => if p.1 = k then (k, v) else p)).find? (fun p => p.1 = k)
      = (m.find? (fun p => p.1 = k)).map (fun _ => (k, v)) := by
  induction m with
  | nil => rfl
  | cons q rest ih =>
    by_cases hq : q.1 = k
    · simp only [List.map_cons, if_pos hq]
      rw [List.find?_cons_of_pos _ (by simp), List.find?_cons_of_pos _ (by simpa using hq)]
      rfl
    · simp only [List.map_cons, if_neg hq]
      rw [List.find?_cons_of_neg _ (by simpa using hq),
        List.find?_cons_of_neg _ (by simpa using hq)]
      exact ih

theorem find?_update_ne {α : Type} (m : List (String × α)) (k k2 : String) (v : α)
    (hne : k2 ≠ k) :
    (m.map (fun p => if p.1 = k then (k, v) else p)).find? (fun p => p.1 = k2)
      = m.find? (fun p => p.1 = k2) := by
  induction m with
  | nil => rfl
  | cons q rest ih =>
    by_cases hq : q.1 = k
    · simp only [List.map_cons, if_pos hq]
      rw [List.find?_cons_of_neg _ (by simp [Ne.symm hne]),
        List.find?_cons_of_neg _ (by simp [hq, Ne.symm hne])]
      exact ih
    · simp only [List.map_cons, if_neg hq]
      by_cases hq2 : q.1 = k2
      · rw [List.find?_cons_of_pos _ (by simpa using hq2),
          List.find?_cons_of_pos _ (by simpa using hq2)]
      · rw [List.find?_cons_of_neg _ (by simpa using hq2),
          List.find?_cons_of_neg _ (by simpa using hq2)]
        exact ih

theorem lookupA_dictUpsert_self {α : Type} (m : List (String × α)) (k : String) (v : α) :
    lookupA (dictUpsert m k v) k = some v := by
  unfold dictUpsert lookupA
  by_cases h : m.any (fun p => p.1 = k)
  · rw [if_pos h, find?_update]
    cases hf : m.find? (fun p => p.1 = k) with
    | none =>
      obtain ⟨p, hp, hpk⟩ := List.any_eq_true.mp h
      rw [List.find?_eq_none] at hf
      exact absurd hpk (by simpa using hf p hp)
    | some p => rfl
  · rw [if_neg h, List.find?_append]
    have hnone : m.find? (fun p => p.1 = k) = none := by
      rw [List.find?_eq_none]
      intro p hp hcon
      exact h (List.any_eq_true.mpr ⟨p, hp, hcon⟩)
    rw [hnone]
    simp

theorem lookupA_dictUpsert_ne {α : Type} (m : List (String × α)) (k k2 : String) (v : α)
    (hne : k2 ≠ k) : lookupA (dictUpsert m k v) k2 = lookupA m k2 := by
  unfold dictUpsert lookupA
  by_cases h : m.any (fun p => p.1 = k)
  · rw [if_pos h, find?_update_ne _ _ _ _ hne]
  · rw [if_neg h, List.find?_append]
    cases hfind : m.find? (fun p => p.1 = k2) with
    | some p => simp
    | none =>
      simp only [Option.none_or]
      rw [List.find?_cons_of_neg _ (by simp [Ne.symm hne])]
      simp

theorem indexLoop_ids_congr (getVec : ℚ → Option (List ℚ)) (duration clip_duration : ℚ)
    (p1 p2 : String) (hstem : pathStem p1 = pathStem p2) :
    ∀ (is : List Nat) (st1 st2 : SemState),
      (SemanticIndex.indexLoop getVec duration clip_duration p1 is st1).1
        = (SemanticIndex.indexLoop getVec duration clip_duration p2 is st2).1 := by
  intro is
  induction is with
  | nil => intro st1 st2; rfl
  | cons i is ih =>
    intro st1 st2
    simp only [SemanticIndex.indexLoop]
    by_cases hshort : min (((i : ℚ) + 1) * clip_duration) duration - (i : ℚ) * clip_duration < 1
    · rw [if_pos hshort, if_pos hshort]
      exact ih st1 st2
    · rw [if_neg hshort, if_neg hshort]
      cases getVec (((i : ℚ) * clip_duration
          + min (((i : ℚ) + 1) * clip_duration) duration) / 2) with
      | none => exact ih st1 st2
      | some vec =>
        simp only
        rw [show SemanticIndex.clipId p1 i = SemanticIndex.clipId p2 i by
          unfold SemanticIndex.clipId; rw [hstem]]
        rw [ih]

theorem indexLoop_meta_preserved (getVec : ℚ → Option (List ℚ))
    (duration clip_duration : ℚ) (p : String) :
    ∀ (is : List Nat) (st : SemState) (cid : String) (m : ClipMeta),
      lookupA st.metadata cid = some m → m.file_path = p →
      ∃ m2, lookupA (SemanticIndex.indexLoop getVec duration clip_duration p is st).2.metadata
          cid = some m2 ∧ m2.file_path = p := by
  intro is
  induction is with
  | nil => intro st cid m hm hmp; exact ⟨m, hm, hmp⟩
  | cons i is ih =>
    intro st cid m hm hmp
    simp only [SemanticIndex.indexLoop]
    by_cases hshort : min (((i : ℚ) + 1) * clip_duration) duration - (i : ℚ) * clip_duration < 1
    · rw [if_pos hshort]
      exact ih st cid m hm hmp
    · rw [if_neg hshort]
      cases getVec (((i : ℚ) * clip_duration
          + min (((i : ℚ) + 1) * clip_duration) duration) / 2) with
      | none => exact ih st cid m hm hmp
      | some vec =>
        simp only
        by_cases hcid : cid = SemanticIndex.clipId p i
        · apply ih
          · rw [hcid]
            exact lookupA_dictUpsert_self _ _ _
          · rfl
        · apply ih
          · rw [lookupA_dictUpsert_ne _ _ _ _ hcid]
            exact hm
          · exact hmp

theorem indexLoop_meta (getVec : ℚ → Option (List ℚ)) (duration clip_duration : ℚ)
    (p : String) :
    ∀ (is : List Nat) (st : SemState),
      ∀ cid ∈ (SemanticIndex.indexLoop getVec duration clip_duration p is st).1,
        ∃ m, lookupA (SemanticIndex.indexLoop getVec duration clip_duration p is st).2.metadata
            cid = some m ∧ m.file_path = p := by
  intro is
  induction is with
  | nil => intro st cid hcid; simp [SemanticIndex.indexLoop] at hcid
  | cons i is ih =>
    intro st cid hcid
    simp only [SemanticIndex.indexLoop] at hcid ⊢
    by_cases hshort : min (((i : ℚ) + 1) * clip_duration) duration - (i : ℚ) * clip_duration < 1
    · rw [if_pos hshort] at hcid ⊢
      exact ih st cid hcid
    · rw [if_neg hshort] at hcid ⊢
      cases hv : getVec (((i : ℚ) * clip_duration
          + min (((i : ℚ) + 1) * clip_duration) duration) / 2) with
      | none =>
        simp only [hv] at hcid ⊢
        exact ih st cid hcid
      | some vec =>
        simp only [hv] at hcid ⊢
        rcases List.mem_cons.mp hcid with h1 | h1
        · subst h1
          apply indexLoop_meta_preserved
          · exact lookupA_dictUpsert_self _ _ _
          · rfl
        · exact ih _ cid h1

theorem index_video_ids_congr (getVec : ℚ → Option (List ℚ)) (fps : ℚ)
    (total_frames : Nat) (p1 p2 : String) (clip_duration : ℚ) (st1 st2 : SemState)
    (hstem : pathStem p1 = pathStem p2) :
    (SemanticIndex.index_video getVec fps total_frames p1 clip_duration st1).1
      = (SemanticIndex.index_video getVec fps total_frames p2 clip_duration st2).1 := by
  unfold SemanticIndex.index_video
  exact indexLoop_ids_congr getVec _ clip_duration p1 p2 hstem _ st1 st2

theorem index_video_meta (getVec : ℚ → Option (List ℚ)) (fps : ℚ)
    (total_frames : Nat) (p : String) (clip_duration : ℚ) (st : SemState) :
    ∀ cid ∈ (SemanticIndex.index_video getVec fps total_frames p clip_duration st).1,
      ∃ m, lookupA
          (SemanticIndex.index_video getVec fps total_frames p clip_duration st).2.metadata
          cid = some m ∧ m.file_path = p := by
  unfold SemanticIndex.index_video
  exact indexLoop_meta getVec _ clip_duration p _ st

/-- C9: clip ids depend only on the file stem and the window index, so two
distinct paths with equal stems generate identical clip id lists (given the
same decoded media), and indexing the second path silently overwrites the
first path's entries: afterwards every one of those clip ids maps to metadata
whose `file_path` is the second path, not the first. -/
theorem C9_clip_id_collision (getVec : ℚ → Option (List ℚ)) (fps : ℚ) (total_frames : Nat)
    (p1 p2 : String) (clip_duration : ℚ) (st : SemState)
    (hne : p1 ≠ p2) (hstem : pathStem p1 = pathStem p2) :
    ((SemanticIndex.index_video getVec fps total_frames p2 clip_duration
        (SemanticIndex.index_video getVec fps total_frames p1 clip_duration st).2).1
      = (SemanticIndex.index_video getVec fps total_frames p1 clip_duration st).1)
    ∧ ∀ cid ∈ (SemanticIndex.index_video getVec fps total_frames p1 clip_duration st).1,
        ∃ m, lookupA (SemanticIndex.index_video getVec fps total_frames p2 clip_duration
              (SemanticIndex.index_video getVec fps total_frames p1 clip_duration st).2).2.metadata
            cid = some m
          ∧ m.file_path = p2 ∧ m.file_path ≠ p1 := by
  constructor
  · exact index_video_ids_congr getVec fps total_frames p2 p1 clip_duration _ _ hstem.symm
  · intro cid hcid
    have hcid2 : cid ∈ (SemanticIndex.index_video getVec fps total_frames p2 clip_duration
        (SemanticIndex.index_video getVec fps total_frames p1 clip_duration st).2).1 := by
      rw [index_video_ids_congr getVec fps total_frames p2 p1 clip_duration _ st hstem.symm]
      exact hcid
    obtain ⟨m, hm, hmp⟩ := index_video_meta getVec fps total_frames p2 clip_duration _ cid hcid2
    exact ⟨m, hm, hmp, by rw [hmp]; exact fun hcon => hne hcon.symm⟩

theorem C9_witness :
    ((SemanticIndex.index_video (fun _ => some [1]) 30 300 "b/trip.mp4" 10
        (SemanticIndex.index_video (fun _ => some [1]) 30 300 "a/trip.mp4" 10
          ⟨[], []⟩).2).1
      = (SemanticIndex.index_video (fun _ => some [1]) 30 300 "a/trip.mp4" 10
          ⟨[], []⟩).1) :=
  (C9_clip_id_collision (fun _ => some [1]) 30 300 "a/trip.mp4" "b/trip.mp4" 10
    ⟨[], []⟩ (by decide) (by decide)).1

/-! ## Facade search flow (`OpenCutPipeline._search_materials`, editor.py)

The facade composes the fingerprint store and the semantic index: scan (the
candidate list is an input), deduplicate with the default threshold 5, check
coverage via `get_stats()["indexed_clips"]`, batch-index when stale, then
search with the configured `top_k` and the default `min_duration` 3.
`batch_index` is parameterised by the per-video indexing function
(`index_video` with its media environment fixed); its progress printing and
the final `_save_index` disk write are not modelled (the callback only
prints, and persistence rewrites the same in-memory dicts). -/

structure SemStats where
  indexed_clips : Nat
  indexed_videos : Nat
deriving DecidableEq

namespace SemanticIndex

/-- Embedding of `SemanticIndex.get_stats`. -/
def get_stats (st : SemState) : SemStats :=
  { indexed_clips := st.vectors.length,
    indexed_videos := ((st.metadata.map (fun p => p.2.file_path)).dedup).length }

/-- Embedding of `SemanticIndex.batch_index`: run the indexing function per
path and return the total number of clips produced with the final state. -/
def batch_index (indexOne : String → SemState → List String × SemState) :
    List String → SemState → Nat × SemState
  | [], st => (0, st)
  | p :: rest, st =>
    let r := indexOne p st
    let r2 := batch_index indexOne rest r.2
    (r.1.length + r2.1, r2.2)

end SemanticIndex

/-- The observable outcome of one `_search_materials` call: the argument
`batch_index` was invoked with (`none` when it was not invoked), the search
result, and the final semantic index state. -/
structure SearchMaterialsResult where
  batchArg : Option (List String)
  results : Option (List SearchResult)
  semFinal : SemState

namespace OpenCutPipeline

/-- Embedding of `OpenCutPipeline._search_materials`: deduplicate the scanned
candidates against the fingerprint store, compare `indexed_clips` with the
number of unique candidates, batch-index THE WHOLE unique list when the count
is smaller, then run the semantic search. -/
def search_materials (encode_text : String → List ℚ)
    (indexOne : String → SemState → List String × SemState)
    (fpVideos : List (String × List (Fin 16)))
    (semSt : SemState) (all_files : List String) (top_k : Nat) (query : String) :
    SearchMaterialsResult :=
  let unique_files := FingerprintDB.deduplicate fpVideos 5 all_files
  let existing_clips := (SemanticIndex.get_stats semSt).indexed_clips
  if existing_clips < unique_files.length then
    let semSt2 := (SemanticIndex.batch_index indexOne unique_files semSt).2
    { batchArg := some unique_files,
      results := (SemanticIndex.search encode_text semSt2 query top_k 3).1,
      semFinal := semSt2 }
  else
    { batchArg := none,
      results := (SemanticIndex.search encode_text semSt query top_k 3).1,
      semFinal := semSt }

end OpenCutPipeline

/-- The unindexed subset of a candidate list, as the spec words it: the
candidates for which no clip metadata with that `file_path` exists in the
index. -/
def specUnindexed (semSt : SemState) (candidates : List String) : List String :=
  candidates.filter (fun f => !(semSt.metadata.any (fun p => p.2.file_path = f)))

/-- C3 (amended): whenever the indexed clip count is below the number of
unique candidates, the facade runs `batch_index` over the FULL deduplicated
candidate list — already-indexed candidates included — and otherwise does not
run it at all; no unindexed subset is computed. -/
theorem C3_batch_index_full_list (encode_text : String → List ℚ)
    (indexOne : String → SemState → List String × SemState)
    (fpVideos : List (String × List (Fin 16)))
    (semSt : SemState) (all_files : List String) (top_k : Nat) (query : String) :
    (OpenCutPipeline.search_materials encode_text indexOne fpVideos semSt
        all_files top_k query).batchArg
      = (if (SemanticIndex.get_stats semSt).indexed_clips
            < (FingerprintDB.deduplicate fpVideos 5 all_files).length
        then some (FingerprintDB.deduplicate fpVideos 5 all_files)
        else none)
    ∧ ((SemanticIndex.get_stats semSt).indexed_clips
          < (FingerprintDB.deduplicate fpVideos 5 all_files).length →
        (OpenCutPipeline.search_materials encode_text indexOne fpVideos semSt
            all_files top_k query).semFinal
          = (SemanticIndex.batch_index indexOne
              (FingerprintDB.deduplicate fpVideos 5 all_files) semSt).2) := by
  unfold OpenCutPipeline.search_materials
  by_cases h : (SemanticIndex.get_stats semSt).indexed_clips
      < (FingerprintDB.deduplicate fpVideos 5 all_files).length
  · rw [if_pos h, if_pos h]
    exact ⟨rfl, fun _ => rfl⟩
  · rw [if_neg h, if_neg h]
    exact ⟨rfl, fun hcon => absurd hcon h⟩

theorem C3_witness :
    (OpenCutPipeline.search_materials (fun _ => []) (fun _ st => ([], st)) []
        ⟨[("trip_0000", [1])],
         [("trip_0000", ⟨"a.mp4", "a.mp4", 0, 10, 10, 5⟩)]⟩
        ["a.mp4", "b.mp4"] 5 "q").semFinal
      = (SemanticIndex.batch_index (fun _ st => ([], st))
          (FingerprintDB.deduplicate [] 5 ["a.mp4", "b.mp4"])
          ⟨[("trip_0000", [1])],
           [("trip_0000", ⟨"a.mp4", "a.mp4", 0, 10, 10, 5⟩)]⟩).2 :=
  (C3_batch_index_full_list (fun _ => []) (fun _ st => ([], st)) []
    ⟨[("trip_0000", [1])], [("trip_0000", ⟨"a.mp4", "a.mp4", 0, 10, 10, 5⟩)]⟩
    ["a.mp4", "b.mp4"] 5 "q").2 (by decide)

/-- C3 counterexample: with one clip already indexed for `a.mp4` and
candidates `[a.mp4, b.mp4]` (no fingerprints on record, so deduplication is
the identity), the staleness check fires and `batch_index` receives the full
list `[a.mp4, b.mp4]`, not the unindexed subset `[b.mp4]` — refuting the
claim that it is run over exactly the unindexed subset. -/
theorem C3_counterexample :
    (OpenCutPipeline.search_materials (fun _ => []) (fun _ st => ([], st)) []
        ⟨[("trip_0000", [1])],
         [("trip_0000", ⟨"a.mp4", "a.mp4", 0, 10, 10, 5⟩)]⟩
        ["a.mp4", "b.mp4"] 5 "q").batchArg
      = some ["a.mp4", "b.mp4"]
    ∧ specUnindexed
        ⟨[("trip_0000", [1])],
         [("trip_0000", ⟨"a.mp4", "a.mp4", 0, 10, 10, 5⟩)]⟩
        ["a.mp4", "b.mp4"] = ["b.mp4"]
    ∧ (some ["a.mp4", "b.mp4"] : Option (List String)) ≠ some ["b.mp4"] := by
  refine ⟨by decide, by decide, by decide⟩
